import Mathlib

/-!
Verification development for the bcolz carray extension module
(chunked, block-compressed, enlargeable container).

The definitions below are a shallow embedding of the Cython extension
source (`carray`, `chunk`, the on-disk `chunks` store, and the
bloscpack persistence header).  Row values are modelled as integers
(`Int`); buffers are modelled as total functions `Nat → Int` (a cell
outside the valid extent is simply never read by the modelled
operations).  Byte counters (`nbytes`, `leftover`, `chunksize`) are
kept in bytes exactly as the source keeps them.  The Blosc codec is
external to the repository: compression is modelled as the identity on
the row contents, and the block size the codec reports for a
compressed buffer is threaded through as an explicit parameter.
-/

namespace Bcolz

/-- Error kinds of the failing operations (the source raises Python
exceptions; the spec classifies them into kinds). `undefinedBehavior`
marks a path on which the source hands an out-of-contract argument to
the external codec. -/
inductive Err where
  | readOnly          -- IOError on mutating a mode-r array
  | outOfRange        -- IndexError / ValueError for trim past length
  | typeMismatch      -- TypeError
  | invalidArgument   -- ValueError
  | notSupported      -- NotImplementedError
  | typeTooLarge      -- atom size too large
  | undefinedBehavior
  deriving DecidableEq, Repr

/-- Open/creation mode of a carray. -/
inductive Mode where
  | r | w | a
  deriving DecidableEq, Repr

/-- A row buffer: cell index to value.  Models a C data pointer; cells
beyond the logical extent are junk that the code never reads. -/
def Buf : Type := Nat → Int

/-- memcpy of `len` rows from `src` into `dst` starting at row `off`
(models `memcpy(dst + off*atomsize, src, len*atomsize)`). -/
def bufWrite (dst : Buf) (off : Nat) (src : Buf) (len : Nat) : Buf :=
  fun j => if off ≤ j ∧ j < off + len then src (j - off) else dst j

/-- The all-zeros buffer (`np.zeros`). -/
def bufZero : Buf := fun _ => 0

/-- check_zeros: whether the first `n` rows of `data` are all zero
(the source scans the raw bytes word by word). -/
def check_zeros (data : Buf) (n : Nat) : Bool :=
  (List.range n).all (fun j => data j == 0)

/-- true_count: byte-wise sum of the buffer (for boolean data each
byte is 0 or 1, so this counts the true values). -/
def trueCountOf (data : Buf) (n : Nat) : Int :=
  ((List.range n).map (fun j => data j)).sum

/-- get_len_of_range from the source: length of a (start, stop, step)
range.  All call sites have positive `step`. -/
def get_len_of_range (start stop step : Int) : Int :=
  if start < stop then (stop - start - 1) / step + 1 else 0

/-- clip_chunk from the source: the portion of the range
`[start, stop) : step` that falls inside chunk number `nchunk`,
in chunk-local coordinates `(startb, stopb, blen)`. -/
def clip_chunk (nchunk chunklen start stop step : Int) :
    Int × Int × Int :=
  let startb := start - nchunk * chunklen
  let stopb := stop - nchunk * chunklen
  if startb ≥ chunklen ∨ stopb ≤ 0 then (startb, stopb, 0)
  else
    let startb := if startb < 0 then 0 else startb
    let stopb := if stopb > chunklen then chunklen else stopb
    let startb :=
      if step > 1 then
        let distance := nchunk * chunklen + startb - start
        if distance % step > 0 then startb + (step - distance % step)
        else startb
      else startb
    if startb > chunklen then (startb, stopb, 0)
    else (startb, stopb, get_len_of_range startb stopb step)

/-! ## The chunk class

A `chunk` is an immutable compressed container for one run of rows.
Compression by the external codec is modelled as the identity on row
contents; `blocksize` is the block granularity the codec reports (a
parameter of the model for compressed chunks, computed by the source
itself for constant chunks). -/

structure Chunk where
  n : Nat             -- number of rows (nbytes / atomsize)
  isconstant : Bool
  constant : Int      -- representative scalar (meaningful when isconstant)
  data : Buf          -- decompressed row contents (compression is identity)
  blocksize : Nat     -- codec block granularity in bytes
  truecount : Int     -- cached byte-sum (used for boolean dtype reductions)

/-- Block size the source picks for a constant chunk: 4 KB, corrected
to a multiple of the item size, floored at the item size. -/
def constantBlocksize (itemsize : Nat) : Nat :=
  let bs := 4 * 1024
  let bs := if bs % itemsize > 0 then bs / itemsize * itemsize else bs
  if bs = 0 then itemsize else bs

/-- chunk.compress_arrdata for an in-memory (`memory = true`) or
disk-backed (`memory = false`) chunk built from a NumPy buffer of `n`
rows.  `stride0` says that the input array has stride 0 along its
leading axis (all rows alias row 0); in that case the logical content
of the input is row 0 repeated, and for a non-constant chunk the
source regenerates the actual data with `array.copy()`.
`codecBlocksize` is the block size the external codec reports when the
data is compressed.  The `true_count` cache is only consulted for
boolean dtypes; it is the byte-sum of the (materialised) buffer. -/
def mkChunk (memory stride0 : Bool) (rows : Buf) (n : Nat)
    (itemsize codecBlocksize : Nat) : Chunk :=
  let isconstant := memory && (stride0 || check_zeros rows n)
  if isconstant then
    { n := n, isconstant := true, constant := rows 0, data := rows,
      blocksize := constantBlocksize itemsize, truecount := 0 }
  else
    let data : Buf := if stride0 then (fun _ => rows 0) else rows
    { n := n, isconstant := false, constant := 0, data := data,
      blocksize := codecBlocksize, truecount := trueCountOf data n }

/-- chunk._getitem: decompress rows `[start, stop)` into a destination
buffer (returned as the function of the destination offset).  A
constant chunk fills the destination with its scalar; otherwise the
codec hands back the stored rows. -/
def chunkGet (c : Chunk) (start : Nat) : Buf :=
  fun j => if c.isconstant then c.constant else c.data (start + j)

/-- chunk.__getitem__ with the full slice `[:]` (used by the slice
write path and by sum): all `c.n` rows. -/
def chunkReadAll (c : Chunk) : Buf := chunkGet c 0

/-- Sum of the full decompressed chunk, `chunk_[:].sum()`. -/
def chunkSumAll (c : Chunk) : Int :=
  ((List.range c.n).map (fun j => chunkReadAll c j)).sum

/-- A placeholder chunk for out-of-range store indexing (the source
would raise; well-formed callers never reach the placeholder). -/
def dummyChunk : Chunk :=
  { n := 0, isconstant := false, constant := 0, data := bufZero,
    blocksize := 0, truecount := 0 }

/-! ## The bloscpack persistence header (on-disk chunk files) -/

def MAX_CHUNKS : Int := 2 ^ 63 - 1

/-- struct.pack of a signed 64-bit little-endian integer, one byte per
list entry. -/
def packInt64le (v : Int) : List Nat :=
  (List.range 8).map (fun i => ((v.emod (2 ^ 64)).toNat / 256 ^ i) % 256)

/-- create_bloscpack_header for an integer chunk count (the only call
site, `chunks._save`, passes the constant 1; the `None` branch stores
-1 and is unreachable from the persistence code modelled here).
The 16-byte header: magic b'blpk', one format-version byte (1), three
reserved zero bytes, a little-endian signed 64-bit chunk count. -/
def create_bloscpack_header (nchunks : Int) : Except Err (List Nat) :=
  if ¬(0 ≤ nchunks ∧ nchunks ≤ MAX_CHUNKS) then .error .invalidArgument
  else .ok ([98, 108, 112, 107] ++ [1] ++ [0, 0, 0] ++ packInt64le nchunks)

/-- Modelled from the spec: the codec's self-describing compressed
buffer is opaque to the repository; its 16-byte header carries
`ctbytes`, the total buffer length including the header, in bytes
12..15 (little-endian uint32).  The codec itself lives outside the
repository, so only the byte-level contract is modelled. -/
structure BloscBuf where
  bytes : List Nat

/-- decode_uint32 of the source: little-endian 4-byte unsigned int. -/
def decode_uint32 (b0 b1 b2 b3 : Nat) : Nat :=
  b0 + 256 * b1 + 256 ^ 2 * b2 + 256 ^ 3 * b3

/-- ctbytes as decode_blosc_header reads it from bytes 12..15 of the
codec buffer. -/
def ctbytesOf (b : BloscBuf) : Nat :=
  decode_uint32 (b.bytes.getD 12 0) (b.bytes.getD 13 0)
    (b.bytes.getD 14 0) (b.bytes.getD 15 0)

/-- Modelled from the spec: well-formedness of a codec buffer — it
carries at least its own 16-byte header and its recorded ctbytes
equals its total length (the codec guarantee the persistence layer
relies on). -/
def BloscBufWF (b : BloscBuf) : Prop :=
  16 ≤ b.bytes.length ∧ ctbytesOf b = b.bytes.length

/-- chunks._save: the bytes written to a chunk file `__i.blp` — the
bloscpack header for a chunk count of 1, then `chunk_.getdata()`, the
raw codec buffer. -/
def chunkFileBytes (buf : BloscBuf) : List Nat :=
  (match create_bloscpack_header 1 with
   | .ok h => h
   | .error _ => []) ++ buf.bytes

/-! ## The carray state

Counters are kept in bytes exactly as in the source: `nbytes` is the
uncompressed data size (`len * atomsize`), `leftover` the number of
valid bytes at the start of the last-chunk buffer.  The derived
quantities `chunksize`, `len` and the chunk count reproduce the
source's arithmetic (`cython.cdiv`, i.e. integer division).  The
`cbytes` compression bookkeeping is not represented: no claim below
depends on it.  The single-atom model restricts to scalar atoms
(`itemsize = atomsize`, rank-1 shape), which every claim is about. -/

structure Carr where
  atomsize : Nat        -- bytes per row
  chunklen : Nat        -- rows per full chunk
  chunks : List Chunk   -- the chunk store (in-memory list or disk directory)
  lastchunkarr : Buf    -- the uncompressed last-chunk (leftover) buffer
  leftover : Nat        -- valid bytes at the start of lastchunkarr
  nbytes : Nat          -- total uncompressed bytes (len * atomsize)
  dflt : Int            -- fill value used by resize
  mode : Mode
  safe : Bool           -- the safe flag of the constructor
  memory : Bool         -- rootdir is None (in-memory container)
  idxcache : Int        -- block cache index: -1 empty, -2 dirty, else row
  datacache : Buf       -- cached decompressed block
  codecBlocksize : Nat  -- block size the codec reports for compressed chunks

namespace Carr

/-- chunksize in bytes (`chunklen * atomsize`). -/
def chunksize (s : Carr) : Nat := s.chunklen * s.atomsize

/-- The logical length `len = nbytes // atomsize`. -/
def len (s : Carr) : Nat := s.nbytes / s.atomsize

/-- The chunk count the source derives, `nbytes // chunksize`. -/
def nchunksOf (s : Carr) : Nat := s.nbytes / s.chunksize

/-- Valid rows in the leftover buffer, `leftover // atomsize`. -/
def leftoverRows (s : Carr) : Nat := s.leftover / s.atomsize

end Carr

/-- carray._fill_chunks: split an input buffer of `n` rows into full
chunks (appended in order to the chunk store) and a remainder memcpyed
into the leftover buffer. -/
def fillChunks (s : Carr) (xs : Buf) (n : Nat) : Carr :=
  let nbytes := n * s.atomsize
  let nchunks := nbytes / s.chunksize
  let chunks := (List.range nchunks).map (fun i =>
    mkChunk s.memory false (fun j => xs (i * s.chunklen + j)) s.chunklen
      s.atomsize s.codecBlocksize)
  let leftover := nbytes % s.chunksize
  let last :=
    if leftover ≠ 0 then
      bufWrite s.lastchunkarr 0 (fun j => xs (nchunks * s.chunklen + j))
        (leftover / s.atomsize)
    else s.lastchunkarr
  { s with chunks := s.chunks ++ chunks, lastchunkarr := last,
           leftover := leftover, nbytes := nbytes }

/-- carray._create_carray with an explicit `chunklen` argument, for a
scalar atom of `atomsize` bytes, from an input buffer of `n` rows.
The expected-length chunk-size heuristic (`utils.calc_chunksize`) is
bypassed by the explicit argument, exactly as in the source; the
heuristic itself lives in a module outside the one modelled here.
The leftover buffer starts as `np.zeros`.  For an in-memory container
the final `flush()` is a no-op. -/
def carrNew (xs : Buf) (n : Nat) (atomsize chunklen : Nat) (dflt : Int)
    (mode : Mode) (memory safe : Bool) (codecBlocksize : Nat) :
    Except Err Carr :=
  if atomsize ≥ 2 ^ 31 then .error .typeTooLarge
  else if atomsize = 0 then .error .typeMismatch
  else if chunklen < 1 then .error .invalidArgument
  else
    let s : Carr :=
      { atomsize := atomsize, chunklen := chunklen, chunks := [],
        lastchunkarr := bufZero, leftover := 0, nbytes := 0, dflt := dflt,
        mode := mode, safe := safe, memory := memory, idxcache := -1,
        datacache := bufZero, codecBlocksize := codecBlocksize }
    .ok (fillChunks s xs n)

/-- The tail of carray.append past the first-fill: consume the rows
not yet copied (`bsize - nbytesfirst` bytes) in full-chunk strides
appended to `chunks1`, then memcpy the final remainder into the (now
logically empty) leftover buffer. -/
def appendRest (s : Carr) (xs : Buf) (bsize nbytesfirst : Nat)
    (chunks1 : List Chunk) (last1 : Buf) : Carr :=
  let nbytesRest := bsize - nbytesfirst
  let nchunksNew := nbytesRest / s.chunksize
  let remainder : Buf := fun j => xs (nbytesfirst / s.atomsize + j)
  let chunks2 := chunks1 ++ (List.range nchunksNew).map (fun i =>
    mkChunk s.memory false (fun j => remainder (i * s.chunklen + j))
      s.chunklen s.atomsize s.codecBlocksize)
  let leftover2 := nbytesRest % s.chunksize
  let last2 :=
    if 0 < leftover2 then
      bufWrite last1 0 (fun j => remainder (nchunksNew * s.chunklen + j))
        (leftover2 / s.atomsize)
    else last1
  { s with chunks := chunks2, lastchunkarr := last2,
           leftover := leftover2, nbytes := s.nbytes + bsize }

/-- carray.append of a buffer of `m` rows (already converted and
type-checked; the stride-0 input branches perform the same row copies
as the memcpy branches modelled here).  The mode check sits inside the
`if self.safe:` block in the source.  When the input does not fit in
the leftover buffer, the buffer is first filled to capacity and
compressed into a chunk (when it held any rows) and the rest is
consumed by `appendRest`. -/
def appendOp (s : Carr) (xs : Buf) (m : Nat) : Except Err Carr :=
  if s.safe && s.mode == .r then .error .readOnly
  else
    let bsize := m * s.atomsize
    if bsize + s.leftover < s.chunksize then
      .ok { s with
        lastchunkarr :=
          bufWrite s.lastchunkarr (s.leftover / s.atomsize) xs m,
        leftover := s.leftover + bsize,
        nbytes := s.nbytes + bsize }
    else if 0 < s.leftover then
      let nbf := s.chunksize - s.leftover
      let last1 := bufWrite s.lastchunkarr (s.leftover / s.atomsize) xs
        (nbf / s.atomsize)
      .ok (appendRest s xs bsize nbf
        (s.chunks ++ [mkChunk s.memory false last1 s.chunklen s.atomsize
          s.codecBlocksize])
        last1)
    else
      .ok (appendRest s xs bsize 0 s.chunks s.lastchunkarr)

/-- The pop loop of carray.trim: `while nchunk2 > nchunk: chunk_ =
chunks.pop()`.  Pops `k` chunks off the end of the store, returning
the store and the chunk held by `chunk_` after the loop (the last one
popped, i.e. the deepest). -/
def popLoop (l : List Chunk) : Nat → List Chunk × Option Chunk
  | 0 => (l, none)
  | k + 1 =>
    let c := l.getLast?
    let r := popLoop l.dropLast k
    (r.1, r.2 <|> c)

/-- The core of carray.trim for a positive `nitems ≤ len` (the guards
live in `trimOp`).  Note that trim performs no mode check.  The
trailing `self.flush()` only touches the disk mirror (tail file and
sizes metadata), not the in-memory state modelled here. -/
def trimPos (s : Carr) (nitems : Nat) : Carr :=
  let bsize := nitems * s.atomsize
  if (s.leftover : Int) - (bsize : Int) > 0 then
    { s with leftover := s.leftover - bsize, nbytes := s.nbytes - bsize }
  else
    let nchunk := (s.len - nitems) / s.chunklen
    let leftover2 := (s.len - nitems) % s.chunklen
    let nchunk2 := s.nbytes / s.chunksize
    let pr := popLoop s.chunks (nchunk2 - nchunk)
    let last :=
      if 0 < leftover2 then
        match pr.2 with
        | some c => bufWrite s.lastchunkarr 0 (chunkGet c 0) leftover2
        | none => s.lastchunkarr
      else s.lastchunkarr
    { s with chunks := pr.1, lastchunkarr := last,
             leftover := leftover2 * s.atomsize,
             nbytes := s.nbytes - bsize }

/-- carray.resize.  Growing appends `nitems - len` rows of the default
value; shrinking delegates to trim with a positive count (whose guards
are then satisfied, so the `trimPos` core runs directly). -/
def resizeOp (s : Carr) (nitems : Int) : Except Err Carr :=
  if nitems = (s.len : Int) then .ok s
  else if nitems < 0 then .error .invalidArgument
  else if nitems > (s.len : Int) then
    appendOp s (fun _ => s.dflt) (nitems.toNat - s.len)
  else .ok (trimPos s (s.len - nitems.toNat))

/-- carray.trim.  `nitems > len` is rejected; a non-positive `nitems`
grows the array through resize; otherwise the trim core runs (with no
mode check: see the source). -/
def trimOp (s : Carr) (nitems : Int) : Except Err Carr :=
  if nitems > (s.len : Int) then .error .outOfRange
  else if nitems ≤ 0 then resizeOp s ((s.len : Int) - nitems)
  else .ok (trimPos s nitems.toNat)

/-! ## Slice reads and writes -/

/-- Python slice.indices for a positive step: canonicalised
`(start, stop)` clamped against the length. -/
def sliceIndicesPos (ostart ostop : Option Int) (length : Int) :
    Int × Int :=
  (match ostart with
   | none => 0
   | some v => if v < 0 then max (v + length) 0 else min v length,
   match ostop with
   | none => length
   | some v => if v < 0 then max (v + length) 0 else min v length)

/-- One iteration of the chunk loop of carray.__getitem__ for a slice:
clip the range to chunk `nchunk` and copy the clipped selection (from
the leftover buffer for the tail chunk, from the decompressed chunk
otherwise) into the output at row offset `nwrow`.  The accumulator is
`(output buffer, nwrow)`. -/
def readLoopBody (s : Carr) (start stop step : Int) (nchunksA : Nat)
    (acc : Buf × Nat) (nchunk : Nat) : Buf × Nat :=
  let r := clip_chunk (nchunk : Int) (s.chunklen : Int) start stop step
  let startb := r.1
  let blenc := r.2.2
  if blenc = 0 then acc
  else
    let source : Buf :=
      if nchunk + 1 = nchunksA ∧ 0 < s.leftover then s.lastchunkarr
      else chunkGet (s.chunks.getD nchunk dummyChunk) 0
    let seg : Buf := fun t => source (startb + (t : Int) * step).toNat
    (bufWrite acc.1 acc.2 seg blenc.toNat, acc.2 + blenc.toNat)

/-- carray.__getitem__ for a slice key `(ostart, ostop, ostep)`
(`none` models Python None).  A nonzero non-positive step is rejected
up front with NotImplementedError; a zero step survives that guard
(`if step and step <= 0`) and blows up inside `slice.indices` with a
ValueError.  Returns the row count and the output buffer. -/
def getitemSliceR (s : Carr) (ostart ostop ostep : Option Int) :
    Except Err (Nat × Buf) :=
  if (match ostep with
      | some st => decide (st ≠ 0 ∧ st ≤ 0)
      | none => false) then .error .notSupported
  else if ostep = some 0 then .error .invalidArgument
  else
    let step := ostep.getD 1
    let p := sliceIndicesPos ostart ostop (s.len : Int)
    let start := p.1
    let stop := p.2
    let blen := get_len_of_range start stop step
    if blen = 0 then .ok (0, bufZero)
    else
      let nchunksA := s.nchunksOf + (if 0 < s.leftover then 1 else 0)
      let fc := (start.toNat) / s.chunklen
      let lc := min ((stop.toNat) / s.chunklen + 1) nchunksA
      let res := (List.range' fc (lc - fc)).foldl
        (readLoopBody s start stop step nchunksA) (bufZero, 0)
      .ok (blen.toNat, res.1)

/-- The strided slice assignment `l[startb:stopb:step] = vals` on a
row buffer. -/
def writeSliceStep (l : Buf) (startb stopb step : Int) (vals : Buf) :
    Buf :=
  fun j =>
    if startb ≤ (j : Int) ∧ (j : Int) < stopb ∧
        ((j : Int) - startb) % step = 0
    then vals ((((j : Int) - startb) / step).toNat)
    else l j

/-- One iteration of the chunk loop of carray.__setitem__: clip the
range to chunk `nchunk`; write into the leftover buffer for the tail
chunk; otherwise read the whole chunk, overwrite the clipped
selection, rebuild the chunk and replace it in the store (a
full-chunk aligned overwrite with step 1 skips the read).  The
accumulator is `(chunk store, leftover buffer, nwrow)`. -/
def setitemLoopBody (s : Carr) (start stop step : Int) (nchunksA : Nat)
    (value : Buf) (acc : List Chunk × Buf × Nat) (nchunk : Nat) :
    List Chunk × Buf × Nat :=
  let r := clip_chunk (nchunk : Int) (s.chunklen : Int) start stop step
  let startb := r.1
  let stopb := r.2.1
  let blenc := r.2.2
  if blenc = 0 then acc
  else
    let vals : Buf := fun t => value (acc.2.2 + t)
    if nchunk + 1 = nchunksA ∧ 0 < s.leftover then
      (acc.1, writeSliceStep acc.2.1 startb stopb step vals,
       acc.2.2 + blenc.toNat)
    else
      let c := acc.1.getD nchunk dummyChunk
      let cdata :=
        if stopb - startb < (s.chunklen : Int) ∨ step > 1 then
          writeSliceStep (chunkReadAll c) startb stopb step vals
        else vals
      (acc.1.set nchunk
        (mkChunk s.memory false cdata s.chunklen s.atomsize
          s.codecBlocksize),
       acc.2.1, acc.2.2 + blenc.toNat)

/-- Mark the block cache dirty before a write: `-2` means the next
scalar read repopulates the cache without touching the cbytes
bookkeeping (the source comment's contract). -/
def dirtyCache (s : Carr) : Carr :=
  if s.idxcache ≥ 0 then { s with idxcache := -2 } else s

/-- carray.__setitem__ for an integer key `k` and scalar value `v`.
The mode-r check runs unconditionally and any pending block cache is
marked dirty (-2) before the write.  An integer key becomes the slice
`(k, k+1, 1)` and flows through the generic chunk loop; the
whole-array replacement fast path needs an array-valued right-hand
side and cannot trigger for a scalar. -/
def setitemInt (s : Carr) (k : Int) (v : Int) : Except Err Carr :=
  if s.mode = .r then .error .readOnly
  else
    let s1 := dirtyCache s
    let key := if k < 0 then k + (s1.len : Int) else k
    if key ≥ (s1.len : Int) then .error .outOfRange
    else
      let p := sliceIndicesPos (some key) (some (key + 1)) (s1.len : Int)
      let start := p.1
      let stop := p.2
      let step : Int := 1
      let vlen := get_len_of_range start stop step
      if vlen = 0 then .ok s1
      else
        let value : Buf := fun _ => v
        let nchunksA := s1.nchunksOf + (if 0 < s1.leftover then 1 else 0)
        let fc := (start.toNat) / s1.chunklen
        let lc := min ((stop.toNat) / s1.chunklen + 1) nchunksA
        let r := (List.range' fc (lc - fc)).foldl
          (setitemLoopBody s1 start stop step nchunksA value)
          (s1.chunks, s1.lastchunkarr, 0)
        .ok { s1 with chunks := r.1, lastchunkarr := r.2.1 }

/-! ## Scalar read through the block cache -/

/-- carray.getitem_cache: fetch row `pos` through the single-block
cache.  Returns `none` when the request cannot be resolved here
(`atomsize > blocksize`), in which case __getitem__ falls back to a
length-1 slice read; otherwise the value and the updated cache
state. -/
def getitem_cache (s : Carr) (pos : Nat) : Option Int × Carr :=
  let nchunks := s.nchunksOf
  let nchunk := pos / s.chunklen
  let posr := pos - nchunk * s.chunklen
  if nchunk = nchunks ∧ s.leftover ≠ 0 then
    (some (s.lastchunkarr (posr % s.chunklen)), s)
  else
    let c := s.chunks.getD nchunk dummyChunk
    let blocklen := c.blocksize / s.atomsize
    if s.atomsize > c.blocksize then (none, s)
    else
      let s1 := if s.idxcache < 0 then { s with datacache := bufZero }
                else s
      let offset := posr / blocklen * blocklen
      let posb := posr % blocklen
      let idx : Int := (nchunk * s.chunklen + offset : Nat)
      if idx = s1.idxcache then (some (s1.datacache posb), s1)
      else
        let extent :=
          if offset + blocklen > s.chunklen then s.chunklen % blocklen
          else blocklen
        let _ := extent  -- rows decompressed into the cache buffer
        let dc := chunkGet c offset
        (some (dc posb), { s1 with datacache := dc, idxcache := idx })

/-- carray.__getitem__ for an integer key: negative keys are shifted
by the length, keys at or beyond the length raise IndexError, in-range
keys go through the block cache with a length-1 slice fallback.  A key
below `-len` survives the bound check and reaches the codec with a
negative position (undefined behaviour of the source, modelled as an
opaque error). -/
def getitemInt (s : Carr) (k : Int) : Except Err (Int × Carr) :=
  let key := if k < 0 then k + (s.len : Int) else k
  if key ≥ (s.len : Int) then .error .outOfRange
  else if key < 0 then .error .undefinedBehavior
  else
    match getitem_cache s key.toNat with
    | (some val, s2) => .ok (val, s2)
    | (none, s2) =>
      match getitemSliceR s2 (some key) (some (key + 1)) (some 1) with
      | .ok r => .ok (r.2 0, s2)
      | .error e => .error e

/-! ## Reduction -/

/-- chunks.__getitem__ for a disk-backed store: every access rebuilds
the chunk from its file via `chunk(scomp, ..., _compr=True)`.  That
constructor branch only records the codec buffer and its sizes
(nbytes, cbytes, blocksize); the cdef fields `isconstant` and
`true_count` are never assigned and keep their C-level default 0.
The logical row content round-trips through the codec unchanged. -/
def rereadChunk (c : Chunk) : Chunk :=
  { n := c.n, isconstant := false, constant := 0,
    data := chunkReadAll c, blocksize := c.blocksize, truecount := 0 }

/-- The chunk object an iteration over `self.chunks` yields: the
stored Python object for an in-memory store (a plain list), the chunk
reread from its file for a disk-backed store (`chunks.__iter__` goes
through `chunks.__getitem__`). -/
def chunkSeen (memory : Bool) (c : Chunk) : Chunk :=
  if memory then c else rereadChunk c

/-- carray.sum with the default output dtype.  The loop iterates
`self.chunks`, so each chunk it sees is `chunkSeen` of the stored one.
Constant chunks contribute `constant * chunklen`; for a boolean dtype
the cached true_count is used; other chunks are decompressed and
summed; the valid prefix of the leftover buffer is added.  The dtype
promotion of the source (widening bools and narrow ints to the
platform integer) makes the accumulation exact, which the unbounded
`Int` model captures. -/
def sumOp (s : Carr) (isBool : Bool) : Int :=
  let base := s.chunks.foldl (fun acc c0 =>
    acc + (if (chunkSeen s.memory c0).isconstant then
             (chunkSeen s.memory c0).constant * (s.chunklen : Int)
           else if isBool then (chunkSeen s.memory c0).truecount
           else chunkSumAll (chunkSeen s.memory c0))) 0
  if s.leftover ≠ 0 then
    base + ((List.range (s.len - s.nchunksOf * s.chunklen)).map
      s.lastchunkarr).sum
  else base

/-! ## Reachable states and the size invariant -/

/-- The size invariant tying the byte counters together: the chunk
store holds exactly the full chunks of the data, the leftover buffer
holds the not-yet-full remainder (strictly less than one chunksize),
and the leftover byte count is row-aligned. -/
def SizeInv (s : Carr) : Prop :=
  0 < s.atomsize ∧ 0 < s.chunklen ∧
  s.nbytes = s.chunks.length * s.chunksize + s.leftover ∧
  s.leftover < s.chunksize ∧
  s.atomsize ∣ s.leftover

/-- States reachable by construction from an initial array followed by
any sequence of append, trim and resize operations. -/
inductive Reach : Carr → Prop where
  | init : ∀ xs n atomsize chunklen dflt mode memory safe bs s,
      carrNew xs n atomsize chunklen dflt mode memory safe bs = .ok s →
      Reach s
  | append : ∀ s xs m s', Reach s → appendOp s xs m = .ok s' → Reach s'
  | trim : ∀ s k s', Reach s → trimOp s k = .ok s' → Reach s'
  | resize : ∀ s k s', Reach s → resizeOp s k = .ok s' → Reach s'

/-- Reference semantics of element `i` of the container: read from the
chunk holding it, or from the leftover buffer past the full chunks. -/
def Carr.elemAt (s : Carr) (i : Nat) : Int :=
  if s.nchunksOf * s.chunklen ≤ i then
    s.lastchunkarr (i - s.nchunksOf * s.chunklen)
  else
    chunkGet (s.chunks.getD (i / s.chunklen) dummyChunk) 0 (i % s.chunklen)

/-! ## The wheretrue iterator

The source drives all three iteration modes through one `__next__`
loop guarded by mode flags; the functions below model that loop for
the `wheretrue` mode (boolean rank-1 data, values are the bytes 0/1).
The iterator state fields mirror the source's fields; `__next__`
recomputes `nextelement` from `_nrow` on entry. -/

structure IterSt where
  carr : Carr
  nhits : Int
  limit : Int
  skip : Int
  start : Int
  stop : Int
  step : Int
  startb : Int
  stopb : Int
  nrowsread : Int
  nrow : Int           -- self._nrow
  row : Int            -- self._row
  nrowsinbuf : Int
  nextelement : Int
  iobufLen : Nat
  iobuf : Buf
  exhausted : Bool

/-- wheretrue → _init_wheretrue → __iter__: reset the sentinels (with
limit defaulting to _MAXINT and `limit + skip` otherwise), then set up
the traversal positions on the view. -/
def initWheretrue (s : Carr) (limit : Option Int) (skip : Int) : IterSt :=
  { carr := s, nhits := 0,
    limit := match limit with
             | some l => l + skip
             | none => 2 ^ 31 - 1,
    skip := skip, start := 0, stop := (s.len : Int), step := 1,
    startb := 0, stopb := 0, nrowsread := 0, nrow := 0 - 1, row := 0 - 1,
    nrowsinbuf := (s.chunklen : Int), nextelement := 0,
    iobufLen := 0, iobuf := bufZero, exhausted := false }

/-- The carray branch of the iterator's check_zeros: skip a whole
buffer when the chunk about to be scanned is a constant chunk whose
constant is zero. -/
def iterCheckZerosSelf (it : IterSt) : Bool :=
  let nchunk := (it.nrowsread / it.nrowsinbuf).toNat
  if nchunk < it.carr.chunks.length then
    let c := it.carr.chunks.getD nchunk dummyChunk
    c.isconstant && (c.constant == 0)
  else false

/-- Sum of the current I/O buffer (`self.iobuf.sum()`), the per-buffer
hit count used to fast-skip whole buffers. -/
def iobufSum (it : IterSt) : Int :=
  ((List.range it.iobufLen).map it.iobuf).sum

/-- The buffer-refill stage of the loop body (the
`if self.nextelement >= self.nrowsread` block): advance `nrowsread` in
full buffers (closed form of the inner while), set `stopb` and `_row`,
then either skip the whole buffer without reading (constant-zero chunk
elision, or insufficient hits against `skip`), which is a `continue`,
or read the I/O buffer and fall through to the per-element step.
Returns `none` on a codec failure, `some (.inl it)` for a `continue`,
`some (.inr it)` for fall-through. -/
def wheretrueFillBuf (it : IterSt) : Option (IterSt ⊕ IterSt) :=
  if it.nextelement ≥ it.nrowsread then
    -- Skip until there is interesting information
    let nrowsread := it.nrowsread +
      (it.nextelement - it.nrowsread) / it.nrowsinbuf * it.nrowsinbuf
    -- Compute the end for this iteration
    let stopb0 := it.stop - nrowsread
    let stopb := if stopb0 > it.nrowsinbuf then it.nrowsinbuf else stopb0
    let row := it.startb - it.step
    let it1 := { it with nrowsread := nrowsread, stopb := stopb,
                         row := row }
    -- Skip chunks with zeros in wheretrue mode
    if iterCheckZerosSelf it1 then
      some (.inl { it1 with nrowsread := it1.nrowsread + it1.nrowsinbuf,
                            nextelement := it1.nextelement + it1.nrowsinbuf })
    else
      -- Read a data chunk
      match getitemSliceR it1.carr (some it1.nrowsread)
          (some (it1.nrowsread + it1.nrowsinbuf)) none with
      | .error _ => none
      | .ok r =>
        let it2 := { it1 with iobufLen := r.1, iobuf := r.2,
                              nrowsread := it1.nrowsread + it1.nrowsinbuf }
        -- Check if we can skip this buffer
        if it2.skip > 0 ∧ it2.nhits + iobufSum it2 < it2.skip then
          some (.inl { it2 with nhits := it2.nhits + iobufSum it2,
                                nextelement := it2.nextelement + it2.nrowsinbuf })
        else some (.inr it2)
  else some (.inr it)

/-- The while loop of carray.__next__ in wheretrue mode, with explicit
fuel for the `continue` back-edges.  Yields `some (index, state)` on a
hit past the skip count, `none` on exhaustion.  After the buffer
stage, the per-element step advances the in-buffer cursor, tests the
boolean at the cursor and either yields its global index or
continues. -/
def wheretrueNextLoop : Nat → IterSt → Option (Int × IterSt)
  | 0, _ => none
  | fuel + 1, it =>
    if it.nextelement < it.stop ∧ it.nhits < it.limit then
      match wheretrueFillBuf it with
      | none => none
      | some (.inl itc) => wheretrueNextLoop fuel itc
      | some (.inr it2) =>
        let row := it2.row + it2.step
        let nrow := it2.nextelement
        let startb :=
          if row + it2.step ≥ it2.stopb then (row + it2.step) % it2.nrowsinbuf
          else it2.startb
        let it3 := { it2 with row := row, nrow := nrow, startb := startb,
                              nextelement := nrow + it2.step }
        if it3.iobuf row.toNat ≠ 0 then
          let it4 := { it3 with nhits := it3.nhits + 1 }
          if it4.nhits ≤ it4.skip then wheretrueNextLoop fuel it4
          else some (it4.nrow, it4)
        else wheretrueNextLoop fuel it3
    else none

/-- One __next__ call: recompute `nextelement` and run the loop; a
`none` result is the StopIteration that marks (and keeps reporting)
exhaustion. -/
def wheretrueNext (fuel : Nat) (it : IterSt) : Option (Int × IterSt) :=
  wheretrueNextLoop fuel { it with nextelement := it.nrow + it.step }

/-- Drive the iterator to completion, collecting the yielded
indices. -/
def runWheretrue (fuel : Nat) : Nat → IterSt → List Int
  | 0, _ => []
  | k + 1, it =>
    match wheretrueNext fuel it with
    | none => []
    | some (v, it2) => v :: runWheretrue fuel k it2

/-! ## Concrete sample states for the closed witnesses -/

/-- An empty in-memory container: 2-byte atoms, 3 rows per chunk. -/
def emptyCarr23 : Carr :=
  { atomsize := 2, chunklen := 3, chunks := [], lastchunkarr := bufZero,
    leftover := 0, nbytes := 0, dflt := 0, mode := .a, safe := true,
    memory := true, idxcache := -1, datacache := bufZero,
    codecBlocksize := 64 }

/-- Sample state: 5 rows of ones (one full chunk plus 2 leftover
rows), built by the constructor path. -/
def sampleCarr : Carr := fillChunks emptyCarr23 (fun _ => 1) 5

/-- The same sample opened read-only. -/
def sampleCarrR : Carr := { sampleCarr with mode := .r }

/-- A disk-backed boolean carray: 6 one-bytes in two full chunks of 3
rows each, no leftover (`memory = false`, i.e. a rootdir store). -/
def carrBoolDisk : Carr :=
  fillChunks
    { atomsize := 1, chunklen := 3, chunks := [], lastchunkarr := bufZero,
      leftover := 0, nbytes := 0, dflt := 0, mode := .a, safe := true,
      memory := false, idxcache := -1, datacache := bufZero,
      codecBlocksize := 64 } (fun _ => 1) 6

/-- The boolean data of end-to-end scenario 5: length 10000, true
exactly at indices divisible by 17. -/
def boolData17 : Buf := fun i => if i % 17 = 0 then 1 else 0

/-- A boolean carray over `boolData17` with an explicit chunklen of
100 (1-byte atoms). -/
def carrBool17 : Carr :=
  fillChunks
    { atomsize := 1, chunklen := 100, chunks := [], lastchunkarr := bufZero,
      leftover := 0, nbytes := 0, dflt := 0, mode := .a, safe := true,
      memory := true, idxcache := -1, datacache := bufZero,
      codecBlocksize := 32 } boolData17 10000

/-- The same boolean carray with an explicit chunklen of 512. -/
def carrBool17b : Carr :=
  fillChunks
    { atomsize := 1, chunklen := 512, chunks := [], lastchunkarr := bufZero,
      leftover := 0, nbytes := 0, dflt := 0, mode := .a, safe := true,
      memory := true, idxcache := -1, datacache := bufZero,
      codecBlocksize := 32 } boolData17 10000

/-! ## Basic lemmas -/

theorem check_zeros_spec {rows : Buf} {n : Nat}
    (h : check_zeros rows n = true) : ∀ j, j < n → rows j = 0 := by
  intro j hj
  have := List.all_eq_true.mp h j (List.mem_range.mpr hj)
  exact eq_of_beq this

theorem popLoop_length (k : Nat) (l : List Chunk) :
    (popLoop l k).1.length = l.length - k := by
  induction k generalizing l with
  | zero => simp [popLoop]
  | succ k ih =>
    simp only [popLoop]
    rw [ih]
    simp [List.length_dropLast]
    omega

theorem chunksize_pos {s : Carr} (h : SizeInv s) : 0 < s.chunksize :=
  Nat.mul_pos h.2.1 h.1

theorem atomsize_dvd_chunksize (s : Carr) : s.atomsize ∣ s.chunksize :=
  dvd_mul_left s.atomsize s.chunklen

theorem SizeInv.nchunks_eq {s : Carr} (h : SizeInv s) :
    s.nchunksOf = s.chunks.length := by
  obtain ⟨ha, hc, heq, hlt, hdvd⟩ := h
  have hcs : 0 < s.chunksize := Nat.mul_pos hc ha
  unfold Carr.nchunksOf
  rw [heq, Nat.mul_comm, Nat.mul_add_div hcs, Nat.div_eq_of_lt hlt]
  omega

theorem SizeInv.atomsize_dvd_nbytes {s : Carr} (h : SizeInv s) :
    s.atomsize ∣ s.nbytes := by
  obtain ⟨ha, hc, heq, hlt, hdvd⟩ := h
  rw [heq]
  exact Dvd.dvd.add (Dvd.dvd.mul_left (atomsize_dvd_chunksize s) _) hdvd

theorem SizeInv.len_mul {s : Carr} (h : SizeInv s) :
    s.len * s.atomsize = s.nbytes :=
  Nat.div_mul_cancel h.atomsize_dvd_nbytes

theorem SizeInv.leftoverRows_lt {s : Carr} (h : SizeInv s) :
    s.leftoverRows < s.chunklen := by
  obtain ⟨ha, hc, heq, hlt, hdvd⟩ := h
  unfold Carr.leftoverRows
  rw [Nat.div_lt_iff_lt_mul ha]
  calc s.leftover < s.chunksize := hlt
    _ = s.chunklen * s.atomsize := rfl

theorem SizeInv.leftoverRows_mul {s : Carr} (h : SizeInv s) :
    s.leftoverRows * s.atomsize = s.leftover :=
  Nat.div_mul_cancel h.2.2.2.2

theorem SizeInv.len_split {s : Carr} (h : SizeInv s) :
    s.len = s.chunks.length * s.chunklen + s.leftoverRows := by
  have hl := h.leftoverRows_mul
  have ha := h.1
  have hb : s.nbytes
      = (s.chunks.length * s.chunklen + s.leftoverRows) * s.atomsize := by
    rw [Nat.add_mul, hl]
    have hq := h.2.2.1
    unfold Carr.chunksize at hq
    rw [hq]
    ring
  unfold Carr.len
  rw [hb, Nat.mul_div_cancel _ ha]

/-- The constructor establishes the size invariant. -/
theorem carrNew_inv {xs : Buf} {n atomsize chunklen : Nat} {dflt : Int}
    {mode : Mode} {memory safe : Bool} {bs : Nat} {s : Carr}
    (h : carrNew xs n atomsize chunklen dflt mode memory safe bs = .ok s) :
    SizeInv s := by
  unfold carrNew at h
  split at h
  · exact absurd h (by simp)
  · split at h
    · exact absurd h (by simp)
    · split at h
      · exact absurd h (by simp)
      · rename_i hbig hzero hlen
        injection h with h
        subst h
        have ha : 0 < atomsize := Nat.pos_of_ne_zero hzero
        have hc : 0 < chunklen := by omega
        refine ⟨ha, hc, ?_, ?_, ?_⟩
        · simp only [fillChunks, Carr.chunksize, List.nil_append,
            List.length_map, List.length_range]
          exact (Nat.div_add_mod' _ _).symm
        · simp only [fillChunks, Carr.chunksize]
          exact Nat.mod_lt _ (Nat.mul_pos hc ha)
        · simp only [fillChunks, Carr.chunksize]
          rw [Nat.dvd_mod_iff (dvd_mul_left atomsize chunklen)]
          exact dvd_mul_left atomsize n

theorem appendRest_inv (s : Carr) (xs : Buf) (bsize nbytesfirst : Nat)
    (chunks1 : List Chunk) (last1 : Buf)
    (ha : 0 < s.atomsize) (hc : 0 < s.chunklen)
    (hdvd : s.atomsize ∣ (bsize - nbytesfirst))
    (heq : s.nbytes + bsize
      = chunks1.length * s.chunksize + (bsize - nbytesfirst)) :
    SizeInv (appendRest s xs bsize nbytesfirst chunks1 last1) := by
  have hcs : 0 < s.chunksize := Nat.mul_pos hc ha
  refine ⟨ha, hc, ?_, ?_, ?_⟩
  · show s.nbytes + bsize = _ * s.chunksize + (bsize - nbytesfirst) % s.chunksize
    simp only [appendRest, List.length_append, List.length_map,
      List.length_range]
    rw [heq, Nat.add_mul]
    have := (Nat.div_add_mod' (bsize - nbytesfirst) s.chunksize)
    omega
  · show (bsize - nbytesfirst) % s.chunksize < s.chunksize
    exact Nat.mod_lt _ hcs
  · show s.atomsize ∣ (bsize - nbytesfirst) % s.chunksize
    rw [Nat.dvd_mod_iff (atomsize_dvd_chunksize s)]
    exact hdvd

theorem appendOp_inv {s : Carr} {xs : Buf} {m : Nat} {s' : Carr}
    (h : SizeInv s) (he : appendOp s xs m = .ok s') : SizeInv s' := by
  obtain ⟨ha, hc, heq, hlt, hdvd⟩ := h
  have hcs : 0 < s.chunksize := Nat.mul_pos hc ha
  have hdvdb : s.atomsize ∣ m * s.atomsize := dvd_mul_left _ _
  simp only [appendOp] at he
  split at he
  · exact absurd he (by simp)
  · split at he
    · rename_i hA
      injection he with he
      subst he
      refine ⟨ha, hc, ?_, ?_, ?_⟩
      · show s.nbytes + m * s.atomsize
          = s.chunks.length * s.chunksize + (s.leftover + m * s.atomsize)
        omega
      · show s.leftover + m * s.atomsize < s.chunksize
        omega
      · exact Dvd.dvd.add hdvd hdvdb
    · rename_i hA
      split at he
      · rename_i hL
        injection he with he
        subst he
        refine appendRest_inv _ _ _ _ _ _ ha hc ?_ ?_
        · refine Nat.dvd_sub' hdvdb
            (Nat.dvd_sub' (atomsize_dvd_chunksize s) hdvd)
        · simp only [List.length_append, List.length_singleton]
          show s.nbytes + m * s.atomsize = (s.chunks.length + 1) * s.chunksize
            + (m * s.atomsize - (s.chunksize - s.leftover))
          rw [Nat.add_mul, Nat.one_mul]
          omega
      · rename_i hL
        injection he with he
        subst he
        refine appendRest_inv _ _ _ _ _ _ ha hc
          (by simp only [Nat.sub_zero]; exact hdvdb) ?_
        have hL0 : s.leftover = 0 := by omega
        show s.nbytes + m * s.atomsize
          = s.chunks.length * s.chunksize + (m * s.atomsize - 0)
        omega

theorem trimPos_inv {s : Carr} {k : Nat} (h : SizeInv s)
    (_hk : k ≤ s.len) : SizeInv (trimPos s k) := by
  have hLsplit := h.len_split
  have hLR := h.leftoverRows_mul
  have hLRlt := h.leftoverRows_lt
  have hnc := h.nchunks_eq
  obtain ⟨ha, hc, heq, hlt, hdvd⟩ := h
  have hcs : 0 < s.chunksize := Nat.mul_pos hc ha
  have hdvdb : s.atomsize ∣ k * s.atomsize := dvd_mul_left _ _
  simp only [trimPos]
  split
  · rename_i hB
    have hblt : k * s.atomsize < s.leftover := by
      omega
    refine ⟨ha, hc, ?_, ?_, ?_⟩
    · show s.nbytes - k * s.atomsize
        = s.chunks.length * s.chunksize + (s.leftover - k * s.atomsize)
      omega
    · show s.leftover - k * s.atomsize < s.chunksize
      omega
    · exact Nat.dvd_sub' hdvd hdvdb
  · rename_i hB
    have hlen_div : s.len / s.chunklen = s.chunks.length := by
      have hx : s.len = s.chunklen * s.chunks.length + s.leftoverRows := by
        rw [hLsplit]
        ring
      rw [hx, Nat.mul_add_div hc, Nat.div_eq_of_lt hLRlt]
      omega
    have hDle : (s.len - k) / s.chunklen ≤ s.chunks.length :=
      calc (s.len - k) / s.chunklen
          ≤ s.len / s.chunklen := Nat.div_le_div_right (Nat.sub_le _ _)
        _ = s.chunks.length := hlen_div
    refine ⟨ha, hc, ?_, ?_, ?_⟩
    · show s.nbytes - k * s.atomsize
        = (popLoop s.chunks (s.nbytes / s.chunksize
            - (s.len - k) / s.chunklen)).1.length * s.chunksize
          + (s.len - k) % s.chunklen * s.atomsize
      rw [popLoop_length]
      have hncOf : s.nbytes / s.chunksize = s.chunks.length := hnc
      rw [hncOf]
      rw [Nat.sub_sub_self hDle]
      have hlenk : s.nbytes - k * s.atomsize = (s.len - k) * s.atomsize := by
        have hlm : s.len * s.atomsize = s.nbytes :=
          SizeInv.len_mul ⟨ha, hc, heq, hlt, hdvd⟩
        rw [Nat.sub_mul, hlm]
      rw [hlenk]
      have hmod := Nat.div_add_mod' (s.len - k) s.chunklen
      show (s.len - k) * s.atomsize
        = (s.len - k) / s.chunklen * (s.chunklen * s.atomsize)
          + (s.len - k) % s.chunklen * s.atomsize
      calc (s.len - k) * s.atomsize
          = ((s.len - k) / s.chunklen * s.chunklen
              + (s.len - k) % s.chunklen) * s.atomsize := by rw [hmod]
        _ = (s.len - k) / s.chunklen * (s.chunklen * s.atomsize)
              + (s.len - k) % s.chunklen * s.atomsize := by ring
    · show (s.len - k) % s.chunklen * s.atomsize < s.chunksize
      show (s.len - k) % s.chunklen * s.atomsize
        < s.chunklen * s.atomsize
      exact Nat.mul_lt_mul_of_lt_of_le (Nat.mod_lt _ hc) (Nat.le_refl _) ha
    · show s.atomsize ∣ (s.len - k) % s.chunklen * s.atomsize
      exact Dvd.dvd.mul_left dvd_rfl _

theorem resizeOp_inv {s : Carr} {k : Int} {s' : Carr} (h : SizeInv s)
    (he : resizeOp s k = .ok s') : SizeInv s' := by
  unfold resizeOp at he
  split at he
  · injection he with he
    subst he
    exact h
  · split at he
    · exact absurd he (by simp)
    · split at he
      · exact appendOp_inv h he
      · injection he with he
        subst he
        exact trimPos_inv h (Nat.sub_le _ _)

theorem trimOp_inv {s : Carr} {k : Int} {s' : Carr} (h : SizeInv s)
    (he : trimOp s k = .ok s') : SizeInv s' := by
  unfold trimOp at he
  split at he
  · exact absurd he (by simp)
  · split at he
    · exact resizeOp_inv h he
    · rename_i hgt hpos
      injection he with he
      subst he
      refine trimPos_inv h ?_
      omega

/-- Every reachable state satisfies the size invariant. -/
theorem reach_inv {s : Carr} (h : Reach s) : SizeInv s := by
  induction h with
  | init xs n atomsize chunklen dflt mode memory safe bs s he =>
    exact carrNew_inv he
  | append s xs m s' _ he ih => exact appendOp_inv ih he
  | trim s k s' _ he ih => exact trimOp_inv ih he
  | resize s k s' _ he ih => exact resizeOp_inv ih he

/-- Claim C1: every state reachable by construction followed by any
sequence of append, trim and resize satisfies
`N * atomsize = nchunks * chunksize + leftover_rows * atomsize` with
`nchunks` the number of chunks actually held by the chunk store, and
`leftover_rows < chunklen`. -/
theorem carr_size_invariant {s : Carr} (h : Reach s) :
    s.len * s.atomsize
      = s.chunks.length * s.chunksize + s.leftoverRows * s.atomsize
    ∧ s.leftoverRows < s.chunklen := by
  have hi := reach_inv h
  refine ⟨?_, hi.leftoverRows_lt⟩
  rw [hi.len_mul, hi.leftoverRows_mul]
  exact hi.2.2.1

/-- Witness for C1 at the concrete constructed state. -/
theorem carr_size_invariant_witness :
    sampleCarr.len * sampleCarr.atomsize
      = sampleCarr.chunks.length * sampleCarr.chunksize
        + sampleCarr.leftoverRows * sampleCarr.atomsize
    ∧ sampleCarr.leftoverRows < sampleCarr.chunklen :=
  carr_size_invariant
    (Reach.init (fun _ => 1) 5 2 3 0 Mode.a true true 64 sampleCarr rfl)

/-- Claim C5: a trim that fits inside the tail (0 < k ≤ leftover_rows)
leaves the chunk store untouched (no chunk popped or replaced, count
unchanged) and decreases leftover_rows by exactly k; in particular
k = leftover_rows empties the tail without touching any chunk. -/
theorem trim_within_tail {s : Carr} (h : SizeInv s) {k : Nat}
    (hpos : 0 < s.leftoverRows) (hk0 : 0 < k) (hk : k ≤ s.leftoverRows) :
    ∃ s', trimOp s (k : Int) = .ok s' ∧ s'.chunks = s.chunks
      ∧ s'.leftoverRows = s.leftoverRows - k := by
  have hLsplit := h.len_split
  have hLR := h.leftoverRows_mul
  have hLRlt := h.leftoverRows_lt
  have hnc := h.nchunks_eq
  obtain ⟨ha, hc, heq, hlt, hdvd⟩ := h
  have hklen : k ≤ s.len := by omega
  have hop : trimOp s (k : Int) = .ok (trimPos s k) := by
    unfold trimOp
    rw [if_neg (by omega), if_neg (by omega)]
    simp
  refine ⟨trimPos s k, hop, ?_⟩
  simp only [trimPos]
  split
  · refine ⟨rfl, ?_⟩
    show (s.leftover - k * s.atomsize) / s.atomsize = s.leftoverRows - k
    have hsub : s.leftover - k * s.atomsize
        = (s.leftoverRows - k) * s.atomsize := by
      rw [Nat.sub_mul, hLR]
    rw [hsub, Nat.mul_div_cancel _ ha]
  · rename_i hcase
    -- k * atomsize ≥ leftover and k ≤ leftover_rows force
    -- k = leftover_rows: the chunk-aligned else branch pops nothing
    have hke : k = s.leftoverRows := by
      by_contra hne
      have hklt : k < s.leftoverRows := lt_of_le_of_ne hk hne
      have hmul : k * s.atomsize < s.leftoverRows * s.atomsize :=
        Nat.mul_lt_mul_of_lt_of_le hklt (Nat.le_refl _) ha
      omega
    have hlk : s.len - k = s.chunks.length * s.chunklen := by
      rw [hLsplit, hke]
      omega
    have hdiv : (s.len - k) / s.chunklen = s.chunks.length := by
      rw [hlk, Nat.mul_div_cancel _ hc]
    have hmod : (s.len - k) % s.chunklen = 0 := by
      rw [hlk, Nat.mul_mod_left]
    have hnb : s.nbytes / s.chunksize = s.chunks.length := hnc
    rw [hdiv, hmod, hnb, Nat.sub_self]
    refine ⟨rfl, ?_⟩
    show 0 * s.atomsize / s.atomsize = s.leftoverRows - k
    rw [Nat.zero_mul, Nat.zero_div, hke, Nat.sub_self]

/-- Witness for C5 at the concrete sample (leftover_rows = 2, k = 1). -/
theorem trim_within_tail_witness :
    ∃ s', trimOp sampleCarr (1 : Nat) = .ok s'
      ∧ s'.chunks = sampleCarr.chunks
      ∧ s'.leftoverRows = sampleCarr.leftoverRows - 1 :=
  trim_within_tail
    (carrNew_inv
      (show carrNew (fun _ => 1) 5 2 3 0 Mode.a true true 64
          = .ok sampleCarr from rfl))
    (by decide) (by decide) (by decide)

/-- Claim C3 (code bug): carray.trim — unlike append and __setitem__ —
performs no mode check, and chunks.pop performs none either, so
trimming a mode-r array succeeds and shrinks it instead of failing
with ReadOnly and leaving the array unchanged. -/
theorem trim_ignores_readonly_mode :
    sampleCarrR.mode = Mode.r
    ∧ (trimOp sampleCarrR 1).isOk = true
    ∧ (match trimOp sampleCarrR 1 with
       | .ok s1 => s1.len
       | .error _ => 0) = sampleCarrR.len - 1
    ∧ appendOp sampleCarrR (fun _ => 1) 1 = .error .readOnly :=
  ⟨rfl, rfl, rfl, rfl⟩

/-- Claim C10: the integer-key read accepts negative keys in [-N, 0)
by shifting them by the length — reading the same element as the
shifted key — and rejects keys at or beyond N with IndexError. -/
theorem getitem_negative_index (s : Carr) (k : Int)
    (hlen : 0 < s.len) (hlo : -(s.len : Int) ≤ k) (hhi : k < 0) :
    getitemInt s k = getitemInt s (k + (s.len : Int))
    ∧ (∀ k2 : Int, (s.len : Int) ≤ k2 →
        getitemInt s k2 = .error .outOfRange) := by
  constructor
  · have e1 : ¬ ((k + (s.len : Int)) ≥ (s.len : Int)) := by omega
    have e2 : ¬ ((k + (s.len : Int)) < 0) := by omega
    simp only [getitemInt, if_pos hhi, if_neg e1, if_neg e2]
  · intro k2 hk2
    have e3 : ¬ (k2 < 0) := by omega
    have e4 : k2 ≥ (s.len : Int) := hk2
    simp only [getitemInt, if_neg e3, if_pos e4]

/-- Witness for C10 at the concrete sample and key -2. -/
theorem getitem_negative_index_witness :
    (getitemInt sampleCarr (-2)
        = getitemInt sampleCarr (-2 + (sampleCarr.len : Int)))
    ∧ (∀ k2 : Int, (sampleCarr.len : Int) ≤ k2 →
        getitemInt sampleCarr k2 = .error .outOfRange) :=
  getitem_negative_index sampleCarr (-2) (by decide) (by decide) (by decide)

/-- Claim C8 counterexample: a slice read with step 0 slips past the
`if step and step <= 0` guard (0 is falsy) and fails inside
slice.indices with ValueError — the InvalidArgument kind, not
NotSupported as claimed. -/
theorem slice_zero_step_counterexample :
    getitemSliceR sampleCarr none none (some 0) = .error .invalidArgument
    ∧ getitemSliceR sampleCarr none none (some 0)
        ≠ .error .notSupported := by
  have h1 : getitemSliceR sampleCarr none none (some 0)
      = .error .invalidArgument := rfl
  refine ⟨h1, ?_⟩
  rw [h1]
  intro hcontr
  exact absurd (Except.error.inj hcontr) (by decide)

/-- Claim C8 amended: a slice read with negative step fails with
NotSupported; a slice read with step exactly 0 fails with the
InvalidArgument kind (the ValueError raised by slice.indices).  The
read path never mutates the array. -/
theorem slice_nonpositive_step (s : Carr) (ostart ostop : Option Int)
    (st : Int) :
    (st < 0 → getitemSliceR s ostart ostop (some st) = .error .notSupported)
    ∧ getitemSliceR s ostart ostop (some 0) = .error .invalidArgument := by
  constructor
  · intro hst
    unfold getitemSliceR
    rw [if_pos]
    simp only [decide_eq_true_eq]
    omega
  · unfold getitemSliceR
    rw [if_neg, if_pos rfl]
    simp only [decide_eq_true_eq]
    omega

/-- Witness for C8 at a concrete negative step. -/
theorem slice_nonpositive_step_witness :
    ((-1 : Int) < 0 →
      getitemSliceR sampleCarr none none (some (-1)) = .error .notSupported)
    ∧ getitemSliceR sampleCarr none none (some 0)
        = .error .invalidArgument :=
  slice_nonpositive_step sampleCarr none none (-1)

set_option maxRecDepth 1000000 in
/-- Claim C9 counterexample: for the boolean array of length 10000
true exactly at multiples of 17, wheretrue with skip 3 and limit 5
does not yield [68, 85, 102, 119, 136]: the skip counter passes over
the first three true indices 0, 17 and 34, so the first yield is
3 * 17 = 51. -/
theorem wheretrue_skip_limit_counterexample :
    runWheretrue 4000 20 (initWheretrue carrBool17 (some 5) 3)
      ≠ [68, 85, 102, 119, 136] := by
  decide

set_option maxRecDepth 1000000 in
/-- Claim C9 amended: the iteration yields the 4th through 8th true
indices, [51, 68, 85, 102, 119] = [3*17, 4*17, 5*17, 6*17, 7*17]
(checked at chunklen 100 and chunklen 512). -/
theorem wheretrue_skip_limit :
    runWheretrue 4000 20 (initWheretrue carrBool17 (some 5) 3)
      = [51, 68, 85, 102, 119]
    ∧ runWheretrue 4000 20 (initWheretrue carrBool17b (some 5) 3)
      = [51, 68, 85, 102, 119] := by
  constructor <;> decide

/-- Claim C4: for an in-memory chunk built from an input buffer, the
chunk is marked constant exactly when the input has stride 0 along the
leading axis or all its bytes are zero; a constant chunk reads back as
its one representative scalar everywhere; a chunk read always returns
the logical input content (row 0 repeated for a stride-0 input); and a
chunk built for a disk-backed carray is never marked constant. -/
theorem chunk_constant_detection (stride0 : Bool) (rows : Buf)
    (n itemsize bs : Nat) (start j : Nat) (h : start + j < n) :
    ((mkChunk true stride0 rows n itemsize bs).isconstant
        = (stride0 || check_zeros rows n))
    ∧ ((mkChunk false stride0 rows n itemsize bs).isconstant = false)
    ∧ (∀ c : Chunk, c.isconstant = true →
        chunkGet c start j = c.constant)
    ∧ chunkGet (mkChunk true stride0 rows n itemsize bs) start j
        = (if stride0 then rows 0 else rows (start + j)) := by
  refine ⟨?_, ?_, ?_, ?_⟩
  · simp only [mkChunk, Bool.true_and]
    cases hz : (stride0 || check_zeros rows n) <;> simp [hz]
  · simp [mkChunk]
  · intro c hc
    simp [chunkGet, hc]
  · simp only [mkChunk, Bool.true_and]
    cases hs : stride0 with
    | true =>
      cases hz : check_zeros rows n <;>
        simp [hs, hz, chunkGet]
    | false =>
      cases hz : check_zeros rows n with
      | true =>
        have hall := check_zeros_spec hz
        have h0 : rows 0 = 0 := hall 0 (Nat.lt_of_le_of_lt (Nat.zero_le _) h)
        have hsj : rows (start + j) = 0 := hall _ h
        simp [hs, hz, chunkGet, h0, hsj]
      | false =>
        simp [hs, hz, chunkGet]

/-- Witness for C4 at a concrete in-memory chunk. -/
theorem chunk_constant_detection_witness :
    (0 + 1 < 3)
    ∧ ((mkChunk true false (fun j => (j : Int)) 3 4 64).isconstant
        = (false || check_zeros (fun j => (j : Int)) 3))
    ∧ ((mkChunk false false (fun j => (j : Int)) 3 4 64).isconstant = false)
    ∧ (∀ c : Chunk, c.isconstant = true →
        chunkGet c 0 1 = c.constant)
    ∧ chunkGet (mkChunk true false (fun j => (j : Int)) 3 4 64) 0 1
        = (if false then (fun j => (j : Int)) 0
           else (fun j => (j : Int)) (0 + 1)) := by
  refine ⟨by decide, ?_⟩
  exact chunk_constant_detection false (fun j => (j : Int)) 3 4 64 0 1
    (by decide)

/-- Claim C7: a chunk file written by the on-disk store is the 16-byte
bloscpack pack header — magic b'blpk', format-version byte 1, three
reserved zero bytes, little-endian signed 64-bit chunk count 1 —
followed by the codec's self-describing buffer; the total file length
is 16 + ctbytes, where ctbytes is read from the codec header. -/
theorem chunk_file_format (buf : BloscBuf) (h : BloscBufWF buf) :
    chunkFileBytes buf
      = [98, 108, 112, 107, 1, 0, 0, 0, 1, 0, 0, 0, 0, 0, 0, 0]
        ++ buf.bytes
    ∧ (chunkFileBytes buf).length = 16 + ctbytesOf buf := by
  have hh : create_bloscpack_header 1
      = .ok [98, 108, 112, 107, 1, 0, 0, 0, 1, 0, 0, 0, 0, 0, 0, 0] := by
    rfl
  constructor
  · simp [chunkFileBytes, hh]
  · simp only [chunkFileBytes, hh, h.2]
    simp [List.length_append]
    omega

/-- Witness for C7 at a concrete well-formed codec buffer (an empty
payload whose header records ctbytes = 16). -/
theorem chunk_file_format_witness :
    BloscBufWF ⟨[0, 0, 0, 0, 0, 0, 0, 0, 0, 0, 0, 0, 16, 0, 0, 0]⟩
    ∧ (chunkFileBytes ⟨[0, 0, 0, 0, 0, 0, 0, 0, 0, 0, 0, 0, 16, 0, 0, 0]⟩
        = [98, 108, 112, 107, 1, 0, 0, 0, 1, 0, 0, 0, 0, 0, 0, 0]
          ++ [0, 0, 0, 0, 0, 0, 0, 0, 0, 0, 0, 0, 16, 0, 0, 0]
      ∧ (chunkFileBytes
          ⟨[0, 0, 0, 0, 0, 0, 0, 0, 0, 0, 0, 0, 16, 0, 0, 0]⟩).length
        = 16 + ctbytesOf ⟨[0, 0, 0, 0, 0, 0, 0, 0, 0, 0, 0, 0, 16, 0, 0, 0]⟩) :=
  ⟨⟨by decide, by decide⟩,
   chunk_file_format _ ⟨by decide, by decide⟩⟩


/-! ## Scalar read/write round trip (C2) -/

theorem dirtyCache_idxcache (s : Carr) : (dirtyCache s).idxcache < 0 := by
  unfold dirtyCache
  split
  · norm_num
  · omega

theorem dirtyCache_eq_fields (s : Carr) :
    (dirtyCache s).atomsize = s.atomsize
    ∧ (dirtyCache s).chunklen = s.chunklen
    ∧ (dirtyCache s).chunks = s.chunks
    ∧ (dirtyCache s).lastchunkarr = s.lastchunkarr
    ∧ (dirtyCache s).leftover = s.leftover
    ∧ (dirtyCache s).nbytes = s.nbytes
    ∧ (dirtyCache s).mode = s.mode
    ∧ (dirtyCache s).memory = s.memory
    ∧ (dirtyCache s).codecBlocksize = s.codecBlocksize := by
  unfold dirtyCache
  split <;> simp

theorem constantBlocksize_ge {itemsize : Nat} (h : 0 < itemsize) :
    itemsize ≤ constantBlocksize itemsize := by
  simp only [constantBlocksize]
  by_cases hmod : 4 * 1024 % itemsize > 0
  · rw [if_pos hmod]
    by_cases hz : 4 * 1024 / itemsize * itemsize = 0
    · rw [if_pos hz]
    · rw [if_neg hz]
      have h1 : 1 ≤ 4 * 1024 / itemsize := by
        rcases Nat.eq_zero_or_pos (4 * 1024 / itemsize) with h0 | h0
        · rw [h0, Nat.zero_mul] at hz
          exact absurd rfl hz
        · exact h0
      calc itemsize = 1 * itemsize := (Nat.one_mul _).symm
        _ ≤ 4 * 1024 / itemsize * itemsize := Nat.mul_le_mul_right _ h1
  · rw [if_neg hmod]
    rw [if_neg (by norm_num)]
    have hdvd : itemsize ∣ 4 * 1024 := Nat.dvd_of_mod_eq_zero (by omega)
    exact Nat.le_of_dvd (by norm_num) hdvd

theorem getD_set_self {α : Type} (l : List α) (n : Nat) (a d : α)
    (h : n < l.length) : (l.set n a).getD n d = a := by
  simp [List.getD_eq_getElem?_getD, List.getElem?_set_self, h]

theorem clip_chunk_step1_inside {p cl i : Int} (_hcl : 0 < cl)
    (h1 : p * cl ≤ i) (h2 : i < p * cl + cl) :
    clip_chunk p cl i (i + 1) 1 = (i - p * cl, i - p * cl + 1, 1) := by
  simp only [clip_chunk, get_len_of_range]
  rw [if_neg (by omega)]
  simp only [if_neg (show ¬ (i - p * cl < 0) by omega),
    if_neg (show ¬ ((1 : Int) > 1) by omega),
    if_neg (show ¬ (i + 1 - p * cl > cl) by omega)]
  rw [if_neg (by omega), if_pos (by omega)]
  simp only [Prod.mk.injEq]
  refine ⟨by trivial, by omega, by omega⟩

theorem clip_chunk_step1_empty {p cl i : Int}
    (h : i + 1 ≤ p * cl) :
    (clip_chunk p cl i (i + 1) 1).2.2 = 0 := by
  simp only [clip_chunk]
  rw [if_pos (by omega)]



theorem readLoopBody_skip {s : Carr} {start stop step : Int} {nA : Nat}
    (acc : Buf × Nat) (p : Nat)
    (hz : (clip_chunk (p : Int) (s.chunklen : Int) start stop step).2.2
      = 0) :
    readLoopBody s start stop step nA acc p = acc := by
  simp only [readLoopBody]
  rw [if_pos hz]

theorem sliceIndicesPos_nat {i len : Nat} (hi : i < len) :
    sliceIndicesPos (some (i : Int)) (some ((i : Int) + 1)) (len : Int)
      = ((i : Int), (i : Int) + 1) := by
  simp only [sliceIndicesPos]
  rw [if_neg (by omega), if_neg (by omega)]
  simp only [Prod.mk.injEq]
  constructor <;> omega

theorem get_len_of_range_single (i : Int) :
    get_len_of_range i (i + 1) 1 = 1 := by
  unfold get_len_of_range
  rw [if_pos (by omega)]
  omega


/-- Evaluation of the slice-read loop for a single in-range row: the
fallback path `self[key:key+1]` of the scalar read returns the
element. -/
theorem bufWrite_first (dst src : Buf) (len : Nat) (hlen : 0 < len) :
    bufWrite dst 0 src len 0 = src 0 := by
  unfold bufWrite
  rw [if_pos ⟨Nat.le_refl 0, by omega⟩]

theorem getitemSliceR_single {s : Carr} (h : SizeInv s) {i : Nat}
    (hi : i < s.len) :
    ∃ out : Buf,
      getitemSliceR s (some (i : Int)) (some ((i : Int) + 1)) (some 1)
        = .ok (1, out)
      ∧ out 0 = s.elemAt i := by
  have hnc := h.nchunks_eq
  have hls := h.len_split
  have hlrlt := h.leftoverRows_lt
  have ha := h.1
  have hc := h.2.1
  rw [show getitemSliceR s (some (i : Int)) (some ((i : Int) + 1)) (some 1)
      = (let p := sliceIndicesPos (some (i : Int)) (some ((i : Int) + 1))
           (s.len : Int)
         let blen := get_len_of_range p.1 p.2 1
         if blen = 0 then .ok (0, bufZero)
         else
           let nchunksA := s.nchunksOf + (if 0 < s.leftover then 1 else 0)
           let fc := p.1.toNat / s.chunklen
           let lc := min (p.2.toNat / s.chunklen + 1) nchunksA
           let res := (List.range' fc (lc - fc)).foldl
             (readLoopBody s p.1 p.2 1 nchunksA) (bufZero, 0)
           .ok (blen.toNat, res.1)) from rfl]
  simp only [sliceIndicesPos_nat hi, get_len_of_range_single]
  rw [if_neg (by omega)]
  have htn1 : ((i : Int)).toNat = i := Int.toNat_natCast i
  have htn2 : ((i : Int) + 1).toNat = i + 1 := by omega
  rw [htn1, htn2]
  have hup : i < s.chunks.length * s.chunklen + s.chunklen := by omega
  by_cases htail : s.chunks.length * s.chunklen ≤ i
  case pos =>
    -- the row lives in the leftover buffer
    have hlro : 0 < s.leftoverRows := by omega
    have hlo : 0 < s.leftover := by
      rcases Nat.eq_zero_or_pos s.leftover with h0 | h0
      · unfold Carr.leftoverRows at hlro
        rw [h0] at hlro
        simp at hlro
      · exact h0
    have hnA : s.nchunksOf + (if 0 < s.leftover then 1 else 0)
        = s.chunks.length + 1 := by
      rw [hnc, if_pos hlo]
    have hfc_ge : s.chunks.length ≤ i / s.chunklen :=
      (Nat.le_div_iff_mul_le hc).mpr htail
    have hfc_lt : i / s.chunklen < s.chunks.length + 1 :=
      (Nat.div_lt_iff_lt_mul hc).mpr
        (by rw [Nat.add_mul, Nat.one_mul]; omega)
    have hfc : i / s.chunklen = s.chunks.length := by omega
    have h1 : s.chunks.length ≤ (i + 1) / s.chunklen := by
      calc s.chunks.length = i / s.chunklen := hfc.symm
        _ ≤ (i + 1) / s.chunklen := Nat.div_le_div_right (by omega)
    have hlc : min ((i + 1) / s.chunklen + 1) (s.chunks.length + 1)
        = s.chunks.length + 1 :=
      min_eq_right (Nat.succ_le_succ h1)
    rw [hnA, hfc, hlc, Nat.add_sub_cancel_left]
    rw [show List.range' s.chunks.length 1 = [s.chunks.length] from rfl]
    simp only [List.foldl_cons, List.foldl_nil]
    have hclip : clip_chunk ((s.chunks.length : Nat) : Int)
        ((s.chunklen : Nat) : Int) (i : Int) ((i : Int) + 1) 1
        = ((i : Int) - (s.chunks.length : Int) * (s.chunklen : Int),
           (i : Int) - (s.chunks.length : Int) * (s.chunklen : Int) + 1,
           1) := by
      refine clip_chunk_step1_inside (by exact_mod_cast hc) ?_ ?_
      · exact_mod_cast htail
      · exact_mod_cast hup
    simp only [readLoopBody, hclip]
    rw [if_neg (by omega), if_pos ⟨trivial, hlo⟩]
    have hpair : ∀ (a : Buf) (b : Nat), (a, b).1 = a := fun _ _ => rfl
    refine ⟨_, rfl, ?_⟩
    rw [hpair]
    rw [bufWrite_first _ _ (Int.toNat 1) (by decide)]
    show s.lastchunkarr _ = s.elemAt i
    unfold Carr.elemAt
    rw [hnc, if_pos htail]
    congr 1
    have hcast : ((s.chunks.length : Nat) : Int) * ((s.chunklen : Nat) : Int)
        = ((s.chunks.length * s.chunklen : Nat) : Int) := by
      push_cast
      ring
    rw [hcast]
    omega
  case neg =>
    push_neg at htail
    have hfc_lt : i / s.chunklen < s.chunks.length :=
      (Nat.div_lt_iff_lt_mul hc).mpr (by omega)
    have hfcl : i / s.chunklen * s.chunklen ≤ i := Nat.div_mul_le_self i _
    have hfcu : i < i / s.chunklen * s.chunklen + s.chunklen :=
      Nat.lt_div_mul_add hc
    have hne : ¬((i / s.chunklen) + 1
          = s.nchunksOf + (if 0 < s.leftover then 1 else 0)
        ∧ 0 < s.leftover) := by
      rintro ⟨h1, h2⟩
      rw [hnc, if_pos h2] at h1
      omega
    have hup2 : (i + 1) / s.chunklen ≤ i / s.chunklen + 1 := by
      have h2 : (i + 1) / s.chunklen < i / s.chunklen + 2 :=
        (Nat.div_lt_iff_lt_mul hc).mpr
          (by rw [Nat.add_mul]; omega)
      omega
    have hlow : i / s.chunklen + 1 ≤ min ((i + 1) / s.chunklen + 1)
        (s.nchunksOf + (if 0 < s.leftover then 1 else 0)) := by
      refine le_min ?_ ?_
      · have hmono : i / s.chunklen ≤ (i + 1) / s.chunklen :=
          Nat.div_le_div_right (by omega)
        omega
      · rw [hnc]
        split <;> omega
    have hhigh : min ((i + 1) / s.chunklen + 1)
        (s.nchunksOf + (if 0 < s.leftover then 1 else 0))
        ≤ i / s.chunklen + 2 :=
      le_trans (min_le_left _ _) (by omega)
    have hclip : clip_chunk ((i / s.chunklen : Nat) : Int)
        ((s.chunklen : Nat) : Int) (i : Int) ((i : Int) + 1) 1
        = ((i : Int) - (i / s.chunklen : Int) * (s.chunklen : Int),
           (i : Int) - (i / s.chunklen : Int) * (s.chunklen : Int) + 1,
           1) := by
      refine clip_chunk_step1_inside (by exact_mod_cast hc) ?_ ?_
      · exact_mod_cast hfcl
      · exact_mod_cast hfcu
    have hbody : ∀ acc : Buf × Nat,
        readLoopBody s (i : Int) ((i : Int) + 1) 1
          (s.nchunksOf + (if 0 < s.leftover then 1 else 0)) acc
          (i / s.chunklen)
        = (bufWrite acc.1 acc.2
            (fun t => chunkGet (s.chunks.getD (i / s.chunklen) dummyChunk) 0
              (((i : Int) - (i / s.chunklen : Int) * (s.chunklen : Int)
                + (t : Int) * 1).toNat))
            1,
           acc.2 + 1) := by
      intro acc
      simp only [readLoopBody, hclip]
      rw [if_neg (by omega), if_neg hne]
      rfl
    have hskip : ∀ acc : Buf × Nat,
        readLoopBody s (i : Int) ((i : Int) + 1) 1
          (s.nchunksOf + (if 0 < s.leftover then 1 else 0)) acc
          (i / s.chunklen + 1) = acc := by
      intro acc
      refine readLoopBody_skip acc _ ?_
      refine clip_chunk_step1_empty ?_
      have hnn : i + 1 ≤ (i / s.chunklen + 1) * s.chunklen := by
        rw [Nat.add_mul, Nat.one_mul]
        omega
      push_cast
      exact_mod_cast hnn
    have hfinal : ∀ outv : Buf,
        outv = bufWrite bufZero 0
          (fun t => chunkGet (s.chunks.getD (i / s.chunklen) dummyChunk) 0
            (((i : Int) - (i / s.chunklen : Int) * (s.chunklen : Int)
              + (t : Int) * 1).toNat)) 1 →
        outv 0 = s.elemAt i := by
      intro outv hv
      rw [hv, bufWrite_first _ _ _ (by omega)]
      show chunkGet _ 0 _ = s.elemAt i
      unfold Carr.elemAt
      rw [hnc, if_neg (by omega)]
      congr 1
      have hcast : ((i : Int) / (s.chunklen : Int)) * ((s.chunklen : Nat) : Int)
          = ((i / s.chunklen * s.chunklen : Nat) : Int) := by
        rw [← Int.natCast_div]
        push_cast
        ring
      rw [hcast]
      have hdm2 := Nat.div_add_mod i s.chunklen
      have hcomm : s.chunklen * (i / s.chunklen)
          = i / s.chunklen * s.chunklen := Nat.mul_comm _ _
      omega
    have hcnt : min ((i + 1) / s.chunklen + 1)
          (s.nchunksOf + (if 0 < s.leftover then 1 else 0))
          - i / s.chunklen = 1
        ∨ min ((i + 1) / s.chunklen + 1)
          (s.nchunksOf + (if 0 < s.leftover then 1 else 0))
          - i / s.chunklen = 2 := by
      omega
    rcases hcnt with hcnt | hcnt
    · rw [hcnt]
      rw [show List.range' (i / s.chunklen) 1 = [i / s.chunklen] from rfl]
      simp only [List.foldl_cons, List.foldl_nil]
      rw [hbody]
      exact ⟨_, rfl, hfinal _ rfl⟩
    · rw [hcnt]
      rw [show List.range' (i / s.chunklen) 2
          = [i / s.chunklen, i / s.chunklen + 1] from rfl]
      simp only [List.foldl_cons, List.foldl_nil]
      rw [hbody, hskip]
      exact ⟨_, rfl, hfinal _ rfl⟩


/-- Characterisation of getitem_cache on an in-range row with an
unpopulated or dirty cache: either it serves the element (tail read,
or block load through the chunk), or it signals a miss because the
atom exceeds the block size. -/
theorem getitem_cache_spec {s : Carr} (h : SizeInv s)
    (hdirty : s.idxcache < 0) {i : Nat} (hi : i < s.len) :
    (∃ s2, getitem_cache s i = (some (s.elemAt i), s2))
    ∨ (getitem_cache s i = (none, s)
       ∧ s.atomsize
         > (s.chunks.getD (i / s.chunklen) dummyChunk).blocksize) := by
  have hnc := h.nchunks_eq
  have hls := h.len_split
  have hlrlt := h.leftoverRows_lt
  have ha := h.1
  have hc := h.2.1
  have hfcl : i / s.chunklen * s.chunklen ≤ i := Nat.div_mul_le_self i _
  have hfcu : i < i / s.chunklen * s.chunklen + s.chunklen :=
    Nat.lt_div_mul_add hc
  have hposr : i - i / s.chunklen * s.chunklen = i % s.chunklen := by
    have hdm := Nat.div_add_mod i s.chunklen
    have hcomm : s.chunklen * (i / s.chunklen)
        = i / s.chunklen * s.chunklen := Nat.mul_comm _ _
    omega
  simp only [getitem_cache]
  split
  · -- the row is served from the leftover buffer
    rename_i htc
    left
    refine ⟨s, ?_⟩
    congr 2
    unfold Carr.elemAt
    rw [← htc.1, if_pos hfcl]
    rw [hposr, Nat.mod_eq_of_lt (Nat.mod_lt _ hc)]
  · rename_i htc
    have hne2 : i / s.chunklen ≠ s.chunks.length := by
      intro hcontr
      rcases not_and_or.mp htc with h1 | h2
      · rw [hnc] at h1
        exact h1 hcontr
      · have hl0 : s.leftover = 0 := by omega
        have hlr0 : s.leftoverRows = 0 := by
          unfold Carr.leftoverRows
          rw [hl0]
          simp
        rw [hcontr] at hfcl
        omega
    have hlt : i / s.chunklen < s.chunks.length := by
      have h1 : i < (s.chunks.length + 1) * s.chunklen := by
        rw [Nat.add_mul, Nat.one_mul]
        omega
      have h2 : i / s.chunklen < s.chunks.length + 1 :=
        (Nat.div_lt_iff_lt_mul hc).mpr h1
      omega
    have hchunklt : i < s.chunks.length * s.chunklen :=
      (Nat.div_lt_iff_lt_mul hc).mp hlt
    have helem : s.elemAt i
        = chunkGet (s.chunks.getD (i / s.chunklen) dummyChunk) 0
          (i % s.chunklen) := by
      unfold Carr.elemAt
      rw [hnc, if_neg (by omega)]
    split
    · -- atomsize > blocksize: signal a miss
      rename_i hbs
      right
      exact ⟨rfl, hbs⟩
    · rename_i hbs
      left
      have hpairex : ∀ (p : Option Int × Carr) (v : Int),
          p.1 = some v → ∃ s2, p = (some v, s2) := by
        intro p v hp
        refine ⟨p.2, ?_⟩
        rw [← hp]
      apply hpairex
      have hproj : ({ s with datacache := bufZero } : Carr).idxcache
          = s.idxcache := rfl
      rw [hproj]
      have hfst : ∀ (a : Option Int) (b : Carr), (a, b).1 = a :=
        fun _ _ => rfl
      split
      · -- a cache hit is impossible: the cache is dirty or empty
        rename_i hhit
        exfalso
        omega
      · rename_i hmiss
        rw [hfst]
        congr 1
        rw [helem]
        simp only [chunkGet]
        by_cases hcon :
            (s.chunks.getD (i / s.chunklen) dummyChunk).isconstant = true
        · rw [if_pos hcon, if_pos hcon]
        · rw [if_neg hcon, if_neg hcon]
          congr 1
          have hdmb := Nat.div_add_mod'
            (i - i / s.chunklen * s.chunklen)
            ((s.chunks.getD (i / s.chunklen) dummyChunk).blocksize
              / s.atomsize)
          omega

/-- The scalar read path of __getitem__ (block cache plus the length-1
slice fallback) returns the element at the requested in-range row, for
any state whose block cache is unpopulated or dirty (idxcache < 0). -/
theorem getitemInt_readsElem {s : Carr} (h : SizeInv s)
    (hdirty : s.idxcache < 0) {i : Nat} (hi : i < s.len) :
    ∃ s2, getitemInt s (i : Int) = .ok (s.elemAt i, s2) := by
  simp only [getitemInt, if_neg (show ¬ ((i : Int) < 0) by omega),
    if_neg (show ¬ ((i : Int) ≥ (s.len : Int)) by omega),
    Int.toNat_natCast]
  rcases getitem_cache_spec h hdirty hi with ⟨s2, hcs⟩ | ⟨hcs, hbs⟩
  · refine ⟨s2, ?_⟩
    rw [hcs]
  · obtain ⟨out, hout, hval⟩ := getitemSliceR_single h hi
    refine ⟨s, ?_⟩
    rw [hcs]
    show (match getitemSliceR s (some (i : Int)) (some ((i : Int) + 1))
          (some 1) with
        | .ok r => Except.ok (r.2 0, s)
        | .error e => Except.error e) = Except.ok (s.elemAt i, s)
    rw [hout]
    show Except.ok (out 0, s) = Except.ok (s.elemAt i, s)
    rw [hval]

theorem check_zeros_all {rows : Buf} {n : Nat}
    (h : check_zeros rows n = true) {j : Nat} (hj : j < n) : rows j = 0 := by
  unfold check_zeros at h
  rw [List.all_eq_true] at h
  exact eq_of_beq (h j (List.mem_range.mpr hj))

theorem chunkGet_mkChunk (memory : Bool) (rows : Buf)
    (n itemsize cbs : Nat) {j : Nat} (hj : j < n) :
    chunkGet (mkChunk memory false rows n itemsize cbs) 0 j = rows j := by
  simp only [mkChunk, Bool.false_or]
  by_cases hcz : (memory && check_zeros rows n) = true
  · rw [if_pos hcz]
    show rows 0 = rows j
    rw [Bool.and_eq_true] at hcz
    have hz : check_zeros rows n = true := hcz.2
    rw [check_zeros_all hz (show 0 < n by omega), check_zeros_all hz hj]
  · rw [if_neg hcz]
    show rows (0 + j) = rows j
    rw [Nat.zero_add]

theorem writeSliceStep_hit (l : Buf) (startb : Int) (vals : Buf)
    {j : Nat} (hj : (j : Int) = startb) :
    writeSliceStep l startb (startb + 1) 1 vals j = vals 0 := by
  unfold writeSliceStep
  rw [if_pos ⟨by omega, by omega, by omega⟩]
  congr 1
  omega

theorem setitemLoopBody_skip {s : Carr} {start stop step : Int}
    {nA : Nat} {value : Buf} (acc : List Chunk × Buf × Nat) (p : Nat)
    (hz : (clip_chunk (p : Int) (s.chunklen : Int) start stop step).2.2
      = 0) :
    setitemLoopBody s start stop step nA value acc p = acc := by
  simp only [setitemLoopBody]
  rw [if_pos hz]

theorem setitem_fold_spec {t : Carr} (h : SizeInv t) {i : Nat}
    (hi : i < t.len) (v : Int) :
    ∃ ch lca n3,
      (List.range' (i / t.chunklen)
        (min ((i + 1) / t.chunklen + 1)
          (t.nchunksOf + (if 0 < t.leftover then 1 else 0))
          - i / t.chunklen)).foldl
        (setitemLoopBody t (i : Int) ((i : Int) + 1) 1
          (t.nchunksOf + (if 0 < t.leftover then 1 else 0)) (fun _ => v))
        (t.chunks, t.lastchunkarr, 0) = (ch, lca, n3)
      ∧ ch.length = t.chunks.length
      ∧ (t.nchunksOf * t.chunklen ≤ i →
          ch = t.chunks ∧ lca (i - t.nchunksOf * t.chunklen) = v)
      ∧ (i < t.nchunksOf * t.chunklen →
          chunkGet (ch.getD (i / t.chunklen) dummyChunk) 0
            (i % t.chunklen) = v
          ∧ lca = t.lastchunkarr) := by
  have hnc := h.nchunks_eq
  have hls := h.len_split
  have hlrlt := h.leftoverRows_lt
  have ha := h.1
  have hc := h.2.1
  have hup : i < t.chunks.length * t.chunklen + t.chunklen := by omega
  by_cases htail : t.chunks.length * t.chunklen ≤ i
  case pos =>
    have hlro : 0 < t.leftoverRows := by omega
    have hlo : 0 < t.leftover := by
      rcases Nat.eq_zero_or_pos t.leftover with h0 | h0
      · unfold Carr.leftoverRows at hlro
        rw [h0] at hlro
        simp at hlro
      · exact h0
    have hnA : t.nchunksOf + (if 0 < t.leftover then 1 else 0)
        = t.chunks.length + 1 := by
      rw [hnc, if_pos hlo]
    have hfc_ge : t.chunks.length ≤ i / t.chunklen :=
      (Nat.le_div_iff_mul_le hc).mpr htail
    have hfc_lt : i / t.chunklen < t.chunks.length + 1 :=
      (Nat.div_lt_iff_lt_mul hc).mpr
        (by rw [Nat.add_mul, Nat.one_mul]; omega)
    have hfc : i / t.chunklen = t.chunks.length := by omega
    have h1 : t.chunks.length ≤ (i + 1) / t.chunklen := by
      calc t.chunks.length = i / t.chunklen := hfc.symm
        _ ≤ (i + 1) / t.chunklen := Nat.div_le_div_right (by omega)
    have hlc : min ((i + 1) / t.chunklen + 1) (t.chunks.length + 1)
        = t.chunks.length + 1 :=
      min_eq_right (Nat.succ_le_succ h1)
    rw [hnA, hfc, hlc, Nat.add_sub_cancel_left]
    rw [show List.range' t.chunks.length 1 = [t.chunks.length] from rfl]
    simp only [List.foldl_cons, List.foldl_nil]
    have hclip : clip_chunk ((t.chunks.length : Nat) : Int)
        ((t.chunklen : Nat) : Int) (i : Int) ((i : Int) + 1) 1
        = ((i : Int) - (t.chunks.length : Int) * (t.chunklen : Int),
           (i : Int) - (t.chunks.length : Int) * (t.chunklen : Int) + 1,
           1) := by
      refine clip_chunk_step1_inside (by exact_mod_cast hc) ?_ ?_
      · exact_mod_cast htail
      · exact_mod_cast hup
    simp only [setitemLoopBody, hclip]
    rw [if_neg (by omega), if_pos ⟨trivial, hlo⟩]
    refine ⟨_, _, _, rfl, rfl, ?_, ?_⟩
    · intro _
      refine ⟨rfl, ?_⟩
      rw [hnc]
      have hcast : ((t.chunks.length : Nat) : Int)
          * ((t.chunklen : Nat) : Int)
          = ((t.chunks.length * t.chunklen : Nat) : Int) := by
        push_cast
        ring
      have hj : ((i - t.chunks.length * t.chunklen : Nat) : Int)
          = (i : Int) - (t.chunks.length : Int) * (t.chunklen : Int) := by
        rw [hcast]
        omega
      rw [writeSliceStep_hit _ _ _ hj]
    · intro hlt2
      rw [hnc] at hlt2
      omega
  case neg =>
    push_neg at htail
    have hfc_lt : i / t.chunklen < t.chunks.length :=
      (Nat.div_lt_iff_lt_mul hc).mpr (by omega)
    have hfcl : i / t.chunklen * t.chunklen ≤ i := Nat.div_mul_le_self i _
    have hfcu : i < i / t.chunklen * t.chunklen + t.chunklen :=
      Nat.lt_div_mul_add hc
    have hne : ¬((i / t.chunklen) + 1
          = t.nchunksOf + (if 0 < t.leftover then 1 else 0)
        ∧ 0 < t.leftover) := by
      rintro ⟨h1, h2⟩
      rw [hnc, if_pos h2] at h1
      omega
    have hup2 : (i + 1) / t.chunklen ≤ i / t.chunklen + 1 := by
      have h2 : (i + 1) / t.chunklen < i / t.chunklen + 2 :=
        (Nat.div_lt_iff_lt_mul hc).mpr
          (by rw [Nat.add_mul]; omega)
      omega
    have hlow : i / t.chunklen + 1 ≤ min ((i + 1) / t.chunklen + 1)
        (t.nchunksOf + (if 0 < t.leftover then 1 else 0)) := by
      refine le_min ?_ ?_
      · have hmono : i / t.chunklen ≤ (i + 1) / t.chunklen :=
          Nat.div_le_div_right (by omega)
        omega
      · rw [hnc]
        split <;> omega
    have hhigh : min ((i + 1) / t.chunklen + 1)
        (t.nchunksOf + (if 0 < t.leftover then 1 else 0))
        ≤ i / t.chunklen + 2 :=
      le_trans (min_le_left _ _) (by omega)
    have hclip : clip_chunk ((i / t.chunklen : Nat) : Int)
        ((t.chunklen : Nat) : Int) (i : Int) ((i : Int) + 1) 1
        = ((i : Int) - (i / t.chunklen : Int) * (t.chunklen : Int),
           (i : Int) - (i / t.chunklen : Int) * (t.chunklen : Int) + 1,
           1) := by
      refine clip_chunk_step1_inside (by exact_mod_cast hc) ?_ ?_
      · exact_mod_cast hfcl
      · exact_mod_cast hfcu
    have hcast : ((i : Int) / (t.chunklen : Int)) * ((t.chunklen : Nat) : Int)
        = ((i / t.chunklen * t.chunklen : Nat) : Int) := by
      rw [← Int.natCast_div]
      push_cast
      ring
    have hdm2 := Nat.div_add_mod i t.chunklen
    have hcomm : t.chunklen * (i / t.chunklen)
        = i / t.chunklen * t.chunklen := Nat.mul_comm _ _
    have hjx : ((i % t.chunklen : Nat) : Int)
        = (i : Int) - (i / t.chunklen : Int) * (t.chunklen : Int) := by
      rw [hcast]
      omega
    have hbody1 : ∃ cdata : Buf,
        setitemLoopBody t (i : Int) ((i : Int) + 1) 1
          (t.nchunksOf + (if 0 < t.leftover then 1 else 0)) (fun _ => v)
          (t.chunks, t.lastchunkarr, 0) (i / t.chunklen)
        = (t.chunks.set (i / t.chunklen)
            (mkChunk t.memory false cdata t.chunklen t.atomsize
              t.codecBlocksize),
           t.lastchunkarr, (1 : Int).toNat)
        ∧ cdata (i % t.chunklen) = v := by
      simp only [setitemLoopBody, hclip]
      rw [if_neg (by omega), if_neg hne]
      refine ⟨_, rfl, ?_⟩
      by_cases hcl1 : 1 < t.chunklen
      · rw [if_pos (Or.inl (by omega))]
        rw [writeSliceStep_hit _ _ _ hjx]
      · rw [if_neg (by omega)]
    rcases hbody1 with ⟨cdata, hb, hcd⟩
    have hcnt : min ((i + 1) / t.chunklen + 1)
          (t.nchunksOf + (if 0 < t.leftover then 1 else 0))
          - i / t.chunklen = 1
        ∨ min ((i + 1) / t.chunklen + 1)
          (t.nchunksOf + (if 0 < t.leftover then 1 else 0))
          - i / t.chunklen = 2 := by
      omega
    have hfinish : ∀ res : List Chunk × Buf × Nat,
        res = (t.chunks.set (i / t.chunklen)
            (mkChunk t.memory false cdata t.chunklen t.atomsize
              t.codecBlocksize),
           t.lastchunkarr, (1 : Int).toNat) →
        ∃ ch lca n3, res = (ch, lca, n3)
          ∧ ch.length = t.chunks.length
          ∧ (t.nchunksOf * t.chunklen ≤ i →
              ch = t.chunks ∧ lca (i - t.nchunksOf * t.chunklen) = v)
          ∧ (i < t.nchunksOf * t.chunklen →
              chunkGet (ch.getD (i / t.chunklen) dummyChunk) 0
                (i % t.chunklen) = v
              ∧ lca = t.lastchunkarr) := by
      intro res hres
      refine ⟨_, _, _, hres, ?_, ?_, ?_⟩
      · simp
      · intro htail2
        rw [hnc] at htail2
        omega
      · intro _
        refine ⟨?_, rfl⟩
        rw [getD_set_self _ _ _ _ hfc_lt]
        rw [chunkGet_mkChunk _ _ _ _ _ (Nat.mod_lt _ hc)]
        exact hcd
    rcases hcnt with hcnt | hcnt
    · rw [hcnt]
      rw [show List.range' (i / t.chunklen) 1 = [i / t.chunklen] from rfl]
      simp only [List.foldl_cons, List.foldl_nil]
      rw [hb]
      exact hfinish _ rfl
    · rw [hcnt]
      rw [show List.range' (i / t.chunklen) 2
          = [i / t.chunklen, i / t.chunklen + 1] from rfl]
      simp only [List.foldl_cons, List.foldl_nil]
      rw [hb]
      rw [setitemLoopBody_skip _ _ (clip_chunk_step1_empty (by
        have hnn : i + 1 ≤ (i / t.chunklen + 1) * t.chunklen := by
          rw [Nat.add_mul, Nat.one_mul]
          omega
        push_cast
        exact_mod_cast hnn))]
      exact hfinish _ rfl

theorem setitemInt_ok {s : Carr} (h : SizeInv s) (hm : ¬ s.mode = .r)
    {i : Nat} (hi : i < s.len) (v : Int) :
    ∃ s1, setitemInt s (i : Int) v = .ok s1
      ∧ SizeInv s1 ∧ s1.idxcache < 0 ∧ s1.len = s.len
      ∧ s1.elemAt i = v := by
  obtain ⟨hda, hdc, hdch, hdl, hdlo, hdnb, hdm, hdmem, hdcb⟩ :=
    dirtyCache_eq_fields s
  have ht_si : SizeInv (dirtyCache s) := by
    unfold SizeInv Carr.chunksize at h ⊢
    rw [hda, hdc, hdch, hdlo, hdnb]
    exact h
  have ht_len : (dirtyCache s).len = s.len := by
    unfold Carr.len
    rw [hda, hdnb]
  have ht_hi : i < (dirtyCache s).len := by
    rw [ht_len]
    exact hi
  obtain ⟨ch, lca, n3, hfold, hchlen, htailP, hmidP⟩ :=
    setitem_fold_spec ht_si ht_hi v
  have hs1si :
      SizeInv ({ dirtyCache s with chunks := ch, lastchunkarr := lca }) := by
    unfold SizeInv Carr.chunksize at ht_si ⊢
    dsimp only
    rw [hchlen]
    exact ht_si
  have hs1idx :
      ({ dirtyCache s with chunks := ch, lastchunkarr := lca } : Carr).idxcache
        < 0 := dirtyCache_idxcache s
  have hs1len :
      ({ dirtyCache s with chunks := ch, lastchunkarr := lca } : Carr).len
        = s.len := by
    unfold Carr.len
    dsimp only
    rw [hda, hdnb]
  have hs1elem :
      ({ dirtyCache s with chunks := ch, lastchunkarr := lca } : Carr).elemAt i
        = v := by
    have hnch :
        ({ dirtyCache s with chunks := ch, lastchunkarr := lca } : Carr).nchunksOf
          = (dirtyCache s).nchunksOf := rfl
    have hcl2 :
        ({ dirtyCache s with chunks := ch, lastchunkarr := lca } : Carr).chunklen
          = (dirtyCache s).chunklen := rfl
    have hlc2 :
        ({ dirtyCache s with chunks := ch, lastchunkarr := lca } : Carr).lastchunkarr
          = lca := rfl
    have hch2 :
        ({ dirtyCache s with chunks := ch, lastchunkarr := lca } : Carr).chunks
          = ch := rfl
    unfold Carr.elemAt
    rw [hnch, hcl2, hlc2, hch2]
    by_cases htl : (dirtyCache s).nchunksOf * (dirtyCache s).chunklen ≤ i
    · rw [if_pos htl]
      exact (htailP htl).2
    · rw [if_neg htl]
      exact (hmidP (by omega)).1
  have hibound : ¬ ((i : Int) ≥ ((dirtyCache s).len : Int)) := by
    have hx : (i : Int) < ((dirtyCache s).len : Int) := by
      exact_mod_cast ht_hi
    omega
  have htn1 : ((i : Int)).toNat = i := Int.toNat_natCast i
  have htn2 : ((i : Int) + 1).toNat = i + 1 := by omega
  simp only [setitemInt]
  rw [if_neg hm, if_neg (show ¬ ((i : Int) < 0) by omega)]
  rw [if_neg hibound]
  simp only [sliceIndicesPos_nat ht_hi, get_len_of_range_single]
  rw [if_neg (show ¬ ((1 : Int) = 0) by omega)]
  rw [htn1, htn2]
  rw [hfold]
  exact ⟨{ dirtyCache s with chunks := ch, lastchunkarr := lca },
    rfl, hs1si, hs1idx, hs1len, hs1elem⟩

/-- C2: for every mutable carray, every in-range index and every
value, __setitem__ followed by __getitem__ at the same index returns
the written value; the write marks the block cache dirty
(idxcache < 0), so the subsequent cache-served scalar read sees the
new data. -/
theorem setitem_getitem_roundtrip {s : Carr} (h : SizeInv s)
    (hm : ¬ s.mode = .r) {i : Nat} (hi : i < s.len) (v : Int) :
    ∃ s1 s2, setitemInt s (i : Int) v = .ok s1
      ∧ s1.idxcache < 0
      ∧ getitemInt s1 (i : Int) = .ok (v, s2) := by
  obtain ⟨s1, hset, hsi1, hidx1, hlen1, helem1⟩ := setitemInt_ok h hm hi v
  obtain ⟨s2, hget⟩ := getitemInt_readsElem hsi1 hidx1
    (by rw [hlen1]; exact hi)
  exact ⟨s1, s2, hset, hidx1, helem1 ▸ hget⟩

theorem setitem_getitem_roundtrip_witness :
    SizeInv sampleCarr ∧ ¬ sampleCarr.mode = .r ∧ 2 < sampleCarr.len
    ∧ ∃ s1 s2, setitemInt sampleCarr ((2 : Nat) : Int) 7 = .ok s1
        ∧ s1.idxcache < 0
        ∧ getitemInt s1 ((2 : Nat) : Int) = .ok (7, s2) :=
  ⟨by unfold SizeInv; decide, by decide, by decide,
   @setitem_getitem_roundtrip sampleCarr (by unfold SizeInv; decide)
     (by decide) 2 (by decide) 7⟩

theorem sum_const_range (n : Nat) (a : Int) :
    ((List.range n).map (fun _ => a)).sum = (n : Int) * a := by
  induction n with
  | zero => simp
  | succ m ih =>
    rw [List.range_succ, List.map_append, List.sum_append, ih]
    simp
    push_cast
    ring

theorem foldl_add_eq_sum {α : Type} (g : α → Int) (l : List α) (a : Int) :
    l.foldl (fun acc c => acc + g c) a = a + (l.map g).sum := by
  induction l generalizing a with
  | nil => simp
  | cons x xs ih =>
    rw [List.foldl_cons, ih, List.map_cons, List.sum_cons]
    ring

theorem map_range_getD {α β : Type} (l : List α) (d : α) (g : α → β) :
    (List.range l.length).map (fun k => g (l.getD k d)) = l.map g := by
  induction l with
  | nil => simp
  | cons x xs ih =>
    rw [List.length_cons, List.range_succ_eq_map, List.map_cons,
      List.map_map, List.map_cons]
    have htl : (List.range xs.length).map
        ((fun k => g ((x :: xs).getD k d)) ∘ Nat.succ) = xs.map g := by
      rw [← ih]
      apply List.map_congr_left
      intro k _
      simp [Function.comp]
    rw [htl]
    rfl

theorem range_mul_sum (f : Nat → Int) (cl : Nat) (L : Nat) :
    ((List.range (L * cl)).map f).sum
    = ((List.range L).map
        (fun k => ((List.range cl).map (fun j => f (k * cl + j))).sum)).sum := by
  induction L with
  | zero => simp
  | succ m ih =>
    rw [Nat.succ_mul, List.range_add, List.map_append, List.sum_append, ih,
      List.range_succ, List.map_append, List.sum_append, List.map_map]
    simp only [List.map_cons, List.map_nil, List.sum_cons, List.sum_nil,
      add_zero]
    congr 1

theorem chunk_contrib (isBool : Bool) (c : Chunk) (cl : Nat)
    (hn : c.n = cl)
    (htc : c.isconstant = false → c.truecount = trueCountOf c.data c.n) :
    (if c.isconstant then c.constant * (cl : Int)
     else if isBool then c.truecount else chunkSumAll c)
    = ((List.range cl).map (fun j => chunkGet c 0 j)).sum := by
  by_cases hcon : c.isconstant = true
  · rw [if_pos hcon]
    have hg : ∀ j, chunkGet c 0 j = c.constant := by
      intro j
      unfold chunkGet
      rw [if_pos hcon]
    calc c.constant * (cl : Int) = (cl : Int) * c.constant := by ring
      _ = ((List.range cl).map (fun _ => c.constant)).sum :=
          (sum_const_range cl c.constant).symm
      _ = ((List.range cl).map (fun j => chunkGet c 0 j)).sum := by
          apply congrArg
          apply List.map_congr_left
          intro j _
          exact (hg j).symm
  · rw [if_neg hcon]
    have hcf : c.isconstant = false := by
      cases hcb : c.isconstant
      · rfl
      · exact absurd hcb hcon
    have hg : ∀ j, chunkGet c 0 j = c.data j := by
      intro j
      unfold chunkGet
      rw [if_neg hcon, Nat.zero_add]
    by_cases hb : isBool = true
    · rw [if_pos hb, htc hcf, hn]
      unfold trueCountOf
      apply congrArg
      apply List.map_congr_left
      intro j _
      exact (hg j).symm
    · rw [if_neg hb]
      unfold chunkSumAll chunkReadAll
      rw [hn]

/-- carray.sum on an in-memory store equals the reference sum over
all elements, provided the chunk metadata is consistent (every stored
chunk holds exactly chunklen rows and non-constant chunks cache their
true byte count, as the chunk constructor guarantees): constant chunks
contribute constant * chunklen, boolean non-constant chunks their
cached true_count, other chunks their decompressed sum, and the tail
the sum of its first leftover_rows rows.  A disk-backed store does not
satisfy this: its loop sees chunks reread with true_count = 0 (see
sum_disk_bool_zero). -/
theorem sum_matches_reference {s : Carr} (h : SizeInv s)
    (hmem : s.memory = true) (isBool : Bool)
    (hn : ∀ c ∈ s.chunks, c.n = s.chunklen)
    (htc : ∀ c ∈ s.chunks, c.isconstant = false →
      c.truecount = trueCountOf c.data c.n) :
    sumOp s isBool = ((List.range s.len).map s.elemAt).sum := by
  have hseen : ∀ c : Chunk, chunkSeen s.memory c = c := by
    intro c
    unfold chunkSeen
    rw [hmem]
    rfl
  have hnc := h.nchunks_eq
  have hls := h.len_split
  have hlrlt := h.leftoverRows_lt
  have ha := h.1
  have hc := h.2.1
  -- split the reference sum into full chunks and tail
  have hrhs : ((List.range s.len).map s.elemAt).sum
      = ((List.range (s.chunks.length * s.chunklen)).map s.elemAt).sum
        + ((List.range s.leftoverRows).map
            (fun r => s.elemAt (s.chunks.length * s.chunklen + r))).sum := by
    rw [hls, List.range_add, List.map_append, List.sum_append, List.map_map]
    congr 2
  -- each in-chunk element reads through its chunk
  have hhead : ((List.range (s.chunks.length * s.chunklen)).map s.elemAt).sum
      = ((List.range (s.chunks.length * s.chunklen)).map
          (fun i => chunkGet (s.chunks.getD (i / s.chunklen) dummyChunk) 0
            (i % s.chunklen))).sum := by
    apply congrArg
    apply List.map_congr_left
    intro i hi2
    rw [List.mem_range] at hi2
    unfold Carr.elemAt
    rw [hnc, if_neg (by omega)]
  -- regroup the in-chunk sum per chunk
  have hgroup : ((List.range (s.chunks.length * s.chunklen)).map
        (fun i => chunkGet (s.chunks.getD (i / s.chunklen) dummyChunk) 0
          (i % s.chunklen))).sum
      = ((List.range s.chunks.length).map
          (fun k => ((List.range s.chunklen).map
            (fun j => chunkGet (s.chunks.getD k dummyChunk) 0 j)).sum)).sum := by
    rw [range_mul_sum]
    apply congrArg
    apply List.map_congr_left
    intro k hk
    rw [List.mem_range] at hk
    apply congrArg
    apply List.map_congr_left
    intro j hj
    rw [List.mem_range] at hj
    have hdiv : (k * s.chunklen + j) / s.chunklen = k := by
      rw [Nat.add_comm, Nat.add_mul_div_right _ _ hc,
        Nat.div_eq_of_lt hj, Nat.zero_add]
    have hmod : (k * s.chunklen + j) % s.chunklen = j := by
      rw [Nat.add_comm, Nat.add_mul_mod_self_right, Nat.mod_eq_of_lt hj]
    rw [hdiv, hmod]
  -- per-chunk contributions agree with the per-chunk sums
  have hchunks : (s.chunks.map (fun c =>
        if c.isconstant then c.constant * (s.chunklen : Int)
        else if isBool then c.truecount else chunkSumAll c)).sum
      = ((List.range s.chunks.length).map
          (fun k => ((List.range s.chunklen).map
            (fun j => chunkGet (s.chunks.getD k dummyChunk) 0 j)).sum)).sum := by
    rw [map_range_getD s.chunks dummyChunk
      (fun c => ((List.range s.chunklen).map
        (fun j => chunkGet c 0 j)).sum)]
    apply congrArg
    apply List.map_congr_left
    intro c hcmem
    exact chunk_contrib isBool c s.chunklen (hn c hcmem) (htc c hcmem)
  -- the tail elements read from the leftover buffer
  have htails : ((List.range s.leftoverRows).map
        (fun r => s.elemAt (s.chunks.length * s.chunklen + r))).sum
      = ((List.range s.leftoverRows).map s.lastchunkarr).sum := by
    apply congrArg
    apply List.map_congr_left
    intro r _
    unfold Carr.elemAt
    rw [hnc, if_pos (Nat.le_add_right _ _)]
    congr 1
    omega
  unfold sumOp
  simp only [hseen]
  rw [foldl_add_eq_sum, zero_add, hchunks, hrhs, hhead, hgroup, htails]
  by_cases hlz : s.leftover ≠ 0
  · rw [if_pos hlz]
    have hllen : s.len - s.nchunksOf * s.chunklen = s.leftoverRows := by
      rw [hnc]
      omega
    rw [hllen]
  · rw [if_neg hlz]
    push_neg at hlz
    have hlr0 : s.leftoverRows = 0 := by
      unfold Carr.leftoverRows
      rw [hlz]
      simp
    rw [hlr0]
    simp

theorem sum_matches_reference_witness :
    SizeInv sampleCarr ∧ sampleCarr.memory = true
    ∧ (∀ c ∈ sampleCarr.chunks, c.n = sampleCarr.chunklen)
    ∧ (∀ c ∈ sampleCarr.chunks, c.isconstant = false →
        c.truecount = trueCountOf c.data c.n)
    ∧ sumOp sampleCarr true
        = ((List.range sampleCarr.len).map sampleCarr.elemAt).sum :=
  ⟨by unfold SizeInv; decide, by decide, by decide, by decide,
   sum_matches_reference (by unfold SizeInv; decide) (by decide) true
     (by decide) (by decide)⟩

theorem sum_map_zero {α : Type} (l : List α) (g : α → Int)
    (hg : ∀ c ∈ l, g c = 0) : (l.map g).sum = 0 := by
  induction l with
  | nil => rfl
  | cons x xs ih =>
    rw [List.map_cons, List.sum_cons, hg x (List.mem_cons_self x xs),
      zero_add]
    exact ih (fun c hcm => hg c (List.mem_cons_of_mem x hcm))

/-- The boolean sum of any fully-chunked disk-backed carray is 0
regardless of the stored data: every chunk the sum loop sees is reread
from disk with true_count = 0. -/
theorem sum_disk_bool_zero {s : Carr} (hmem : s.memory = false)
    (hlo : s.leftover = 0) : sumOp s true = 0 := by
  have hsf : ∀ c : Chunk, chunkSeen s.memory c = rereadChunk c := by
    intro c
    unfold chunkSeen
    rw [hmem]
    rfl
  unfold sumOp
  simp only [hsf]
  rw [if_neg (by omega)]
  rw [foldl_add_eq_sum, zero_add]
  apply sum_map_zero
  intro c _
  simp [rereadChunk]

/-- C6 (refuted for disk-backed stores): carray.sum's boolean branch
adds chunk_.true_count per chunk, but iterating a disk-backed store
rereads every chunk from its file through chunks.__getitem__ with
_compr=True, a constructor branch that never assigns true_count, so
the field keeps its default 0.  On the 6-element all-ones disk-backed
boolean carray (two full chunks, no leftover) the stored chunk objects
were built with true_count = 3, yet sum returns 0 while the reference
element-wise sum is 6. -/
theorem sum_disk_bool_counterexample :
    carrBoolDisk.memory = false
    ∧ (∀ c ∈ carrBoolDisk.chunks,
        c.truecount = 3 ∧ (rereadChunk c).truecount = 0)
    ∧ sumOp carrBoolDisk true = 0
    ∧ ((List.range carrBoolDisk.len).map carrBoolDisk.elemAt).sum = 6 := by
  refine ⟨rfl, by decide, ?_, by decide⟩
  exact sum_disk_bool_zero rfl rfl

end Bcolz

